import Mathlib

/-!
Verification of the `claude-chat-analyzer` tool
(`src/claude-chat-analyzer/main.ts`).

The TypeScript source is shallowly embedded: strings are modelled as
`List Char` (one entry per UTF-16 code unit; every character occurring in
the source and in the claims is in the BMP, where code units and code
points coincide), and each JavaScript regular-expression operation of the
source is implemented as an executable scanner with the exact JS
semantics (leftmost match, lazy/greedy quantifiers, `g`/`i`/`m` flags) of
the concrete pattern it embeds.

Note on the marker glyphs: the source file spells the session-transcript
markers as the two-character sequence U+00E2,U+00BA (assistant marker),
the five-character sequence `"  "` ++ U+00E2,U+017D,U+00BF (tool-result
prefix), and similar multi-character sequences inside the decoration
character classes.  The embedding reproduces those character sequences
exactly as they appear in the file.
-/

namespace ChatAnalyzer

/-- Whitespace class of JavaScript: the characters matched by `\s` and
removed by `String.prototype.trim` (WhiteSpace ∪ LineTerminator). -/
def isSpaceJs (c : Char) : Bool :=
  c = ' ' ∨ c = '\t' ∨ c = '\n' ∨ c = '\u000b' ∨ c = '\u000c' ∨ c = '\r' ∨
  c = '\u00A0' ∨ c = '\u1680' ∨ ('\u2000' ≤ c ∧ c ≤ '\u200A') ∨
  c = '\u2028' ∨ c = '\u2029' ∨ c = '\u202F' ∨ c = '\u205F' ∨
  c = '\u3000' ∨ c = '\uFEFF'

/-- Word-character class of JavaScript `\w`: `[A-Za-z0-9_]`. -/
def isWordChar (c : Char) : Bool :=
  ('a' ≤ c ∧ c ≤ 'z') ∨ ('A' ≤ c ∧ c ≤ 'Z') ∨ ('0' ≤ c ∧ c ≤ '9') ∨ c = '_'

/-- ASCII lower-casing, the case folding JS applies to the ASCII-only
patterns of this program under the `i` flag. -/
def lowerAscii (c : Char) : Char :=
  if 'A' ≤ c ∧ c ≤ 'Z' then Char.ofNat (c.toNat + 32) else c

/-- Case-insensitive prefix test (ASCII folding), for `i`-flagged patterns. -/
def ciPrefix : List Char → List Char → Bool
  | [], _ => true
  | _ :: _, [] => false
  | p :: ps, c :: cs => lowerAscii p = lowerAscii c && ciPrefix ps cs

/-- Splitting on `'\n'`, the embedding of JS `text.split('\n')`.
Always returns at least one (possibly empty) line. -/
def splitNl : List Char → List (List Char)
  | [] => [[]]
  | '\n' :: cs => [] :: splitNl cs
  | c :: cs => (splitNl cs).modifyHead (c :: ·)

/-- Joining with `'\n'`, the embedding of JS `lines.join('\n')`. -/
def joinNl : List (List Char) → List Char
  | [] => []
  | [l] => l
  | l :: ls => l ++ '\n' :: joinNl ls

/-- Left trim: drop leading JS whitespace. -/
def jsTrimL (l : List Char) : List Char := l.dropWhile isSpaceJs

/-- Right trim: drop trailing JS whitespace. -/
def jsTrimR (l : List Char) : List Char := (l.reverse.dropWhile isSpaceJs).reverse

/-- The embedding of JS `String.prototype.trim`. -/
def jsTrimC (l : List Char) : List Char := jsTrimR (jsTrimL l)

/-- String-level wrapper of `jsTrimC`. -/
def jsTrimS (s : String) : String := String.mk (jsTrimC s.data)

/-- Leading count of characters satisfying `p`. -/
def countLeading (p : Char → Bool) : List Char → Nat
  | [] => 0
  | c :: cs => if p c then countLeading p cs + 1 else 0

/-- First index (if any) at which `pat` occurs as a substring. -/
def findSub (pat : List Char) : List Char → Option Nat
  | [] => if pat = [] then some 0 else none
  | c :: cs => if pat.isPrefixOf (c :: cs) then some 0 else (findSub pat cs).map (· + 1)

/-- Scanner for the JS global replacement of `open[\s\S]*?close` by the
empty string: at each position, if `op` starts here and `cl` occurs later,
the region up to and including the first such `cl` (lazy quantifier) is
dropped and scanning resumes after it; otherwise the character is kept.
The `Nat` argument counts characters of a recognized match still to skip. -/
def rdAux (op cl : List Char) : Nat → List Char → List Char
  | _ + 1, [] => []
  | n + 1, _ :: cs => rdAux op cl n cs
  | 0, [] => []
  | 0, c :: cs =>
    if op.isPrefixOf (c :: cs) then
      match findSub cl (List.drop op.length (c :: cs)) with
      | some i => rdAux op cl (op.length + i + cl.length - 1) cs
      | none => c :: rdAux op cl 0 cs
    else c :: rdAux op cl 0 cs

/-- Embedding of `cleaned.replace(/open[\s\S]*?close/g, '')`. -/
def removeDelim (op cl : List Char) (l : List Char) : List Char := rdAux op cl 0 l

/-- Length of a match of `<\/antml:[^>]+>` starting exactly here, if any:
the literal `"</antml:"`, then at least one non-`'>'` character, then `'>'`. -/
def antmlCloserLen (l : List Char) : Option Nat :=
  if ("</antml:".data).isPrefixOf l then
    match findSub ['>'] (List.drop 8 l) with
    | some j => if 1 ≤ j then some (8 + j + 1) else none
    | none => none
  else none

/-- Offset just past the first `<\/antml:[^>]+>` closer in `l`, if any. -/
def findAntmlEnd : List Char → Option Nat
  | [] => none
  | c :: cs =>
    match antmlCloserLen (c :: cs) with
    | some len => some len
    | none => (findAntmlEnd cs).map (· + 1)

/-- Scanner for `cleaned.replace(/<[\s\S]*?<\/antml:[^>]+>/g, '')`:
a match starts at any `'<'` that is followed (lazily) by a
`"</antml:" [^>]+ ">"` closer. -/
def antmlAux : Nat → List Char → List Char
  | _ + 1, [] => []
  | n + 1, _ :: cs => antmlAux n cs
  | 0, [] => []
  | 0, c :: cs =>
    if c = '<' then
      match findAntmlEnd cs with
      | some e => antmlAux e cs
      | none => c :: antmlAux 0 cs
    else c :: antmlAux 0 cs

/-- Embedding of the `antml`-block removal replacement. -/
def removeAntml (l : List Char) : List Char := antmlAux 0 l

/-- The fixed tool-name alternation of the first tool-call line pattern. -/
def toolNames : List (List Char) :=
  ["Search".data, "Bash".data, "Read".data, "Write".data, "Update".data,
   "Fetch".data, "Edit".data, "Glob".data, "Grep".data, "Task".data,
   "TodoWrite".data, "WebFetch".data, "WebSearch".data, "LSP".data,
   "NotebookEdit".data]

/-- Pattern `^(Search|Bash|...|NotebookEdit)\(.*\)$` against a whole line:
one of the tool names, `'('`, anything, and a final `')'`. -/
def isToolLine1 (l : List Char) : Bool :=
  toolNames.any fun name =>
    (name ++ ['(']).isPrefixOf l && l.getLast? = some ')' &&
      decide (name.length + 2 ≤ l.length)

/-- Pattern `^filesystem - \w+ \(MCP\)\(.*\)$` against a whole line. -/
def isToolLine2 (l : List Char) : Bool :=
  ("filesystem - ".data).isPrefixOf l &&
    (let rest := List.drop 13 l
     let w := countLeading isWordChar rest
     decide (1 ≤ w) &&
       (let rest2 := List.drop w rest
        (" (MCP)(".data).isPrefixOf rest2 &&
          (let rest3 := List.drop 7 rest2
           !rest3.isEmpty && rest3.getLast? = some ')')))

/-- Witness search for `\w+__\w+`: some `"__"` with at least one word char
before it (the scanner is started one character in) and one after it. -/
def hasInnerDoubleUnderscore : List Char → Bool
  | '_' :: '_' :: _ :: _ => true
  | _ :: rest => hasInnerDoubleUnderscore rest
  | [] => false

/-- Pattern `^mcp__\w+__\w+\(.*\)$` against a whole line. -/
def isToolLine3 (l : List Char) : Bool :=
  ("mcp__".data).isPrefixOf l &&
    (let rest := List.drop 5 l
     let r := rest.takeWhile isWordChar
     let rest2 := List.drop r.length rest
     rest2.head? = some '(' &&
       (match r with
        | [] => false
        | _ :: rtail => hasInnerDoubleUnderscore rtail) &&
       (let rest3 := List.drop 1 rest2
        !rest3.isEmpty && rest3.getLast? = some ')'))

/-- Embedding of one `cleaned.replace(/^pat$/gm, '')` pass: every full line
matching `p` is replaced by the empty line. -/
def replaceLines (p : List Char → Bool) (l : List Char) : List Char :=
  joinNl ((splitNl l).map fun line => if p line then [] else line)

/-- Scanner for `cleaned.replace(/\n{3,}/g, '\n\n')`: `pending` counts the
newlines of the run currently being read; a run of three or more newlines
is emitted as exactly two. -/
def collapseAux (pending : Nat) : List Char → List Char
  | [] => List.replicate (min pending 2) '\n'
  | c :: cs =>
    if c = '\n' then collapseAux (pending + 1) cs
    else List.replicate (min pending 2) '\n' ++ c :: collapseAux 0 cs

/-- Embedding of the newline-collapsing replacement. -/
def collapseNl (l : List Char) : List Char := collapseAux 0 l

/-- Embedding of `cleanMarkdownContent`, the Content Sanitizer: removes
`function_calls`, `function_results`, `antml`, `tool_use`/`tool_result`
fence and `system-reminder` regions, blanks whole-line tool invocations,
collapses newline runs, and trims. The passes run in source order. -/
def cleanChars (l : List Char) : List Char :=
  jsTrimC <| collapseNl <|
    replaceLines isToolLine3 <| replaceLines isToolLine2 <| replaceLines isToolLine1 <|
      removeDelim "<system-reminder>".data "</system-reminder>".data <|
        removeDelim "```tool_result".data "```".data <|
          removeDelim "```tool_use".data "```".data <|
            removeAntml <|
              removeDelim "<function_results>".data "</function_results>".data <|
                removeDelim "<function_calls>".data "</function_calls>".data l

/-- String-level wrapper of the Content Sanitizer. -/
def cleanMarkdownContent (s : String) : String := String.mk (cleanChars s.data)

/-- Sender role, the TS union `'human' | 'assistant'`. -/
inductive Sender where
  | human
  | assistant
deriving DecidableEq, Repr

/-- The TS `ParsedMessage` record `{sender, text, timestamp}`. -/
structure ParsedMessage where
  sender : Sender
  text : String
  timestamp : String
deriving DecidableEq, Repr

/-- The two-character sequence the source file uses as the assistant
marker glyph (U+00E2, U+00BA). -/
def assistantGlyph : List Char := ['\u00E2', '\u00BA']

/-- The five-character tool-result prefix of the source
(`"  "` followed by U+00E2, U+017D, U+00BF). -/
def toolResultPrefix : List Char := [' ', ' ', '\u00E2', '\u017D', '\u00BF']

/-- The character class of the first decoration pattern
`/^[...]+/` as it appears (mojibake-expanded) in the source file. -/
def borderClass : List Char :=
  ['\u00E2', '\u2022', '\u00AD', '\u00B0', '\u201D', '\u201A',
   '\u0153', '\u00BC', '\u00AE', '\u00AF', '\u20AC']

/-- The character class of the second decoration pattern
`/^\s*\*\s*[...]+/` as it appears (mojibake-expanded) in the source file. -/
def blockClass : List Char :=
  ['\u00E2', '\u2013', '\u203A', '\u0153', '\u02C6', '\u02DC']

/-- Test for `/^> [^>]/`: a human turn marker of strategy 1. -/
def isHumanStart (l : List Char) : Bool :=
  match l with
  | '>' :: ' ' :: c :: _ => c ≠ '>'
  | _ => false

/-- Test for `line.startsWith(glyph ++ " ") || line === glyph`:
an assistant turn marker of strategy 1. -/
def isAssistantStart (l : List Char) : Bool :=
  (assistantGlyph ++ [' ']).isPrefixOf l || l = assistantGlyph

/-- Test for `line.startsWith("  " ++ toolGlyph)`: a tool-result line. -/
def isToolResultLine (l : List Char) : Bool :=
  toolResultPrefix.isPrefixOf l

/-- Test for the two decoration patterns skipped for continuation lines in
strategy 1: a line starting with a border-class character, or optional
whitespace, a `'*'`, optional whitespace and a block-class character. -/
def isDecorationLine (l : List Char) : Bool :=
  (match l.head? with
   | some c => borderClass.contains c
   | none => false) ||
  (match l.dropWhile isSpaceJs with
   | '*' :: rest =>
     match rest.dropWhile isSpaceJs with
     | c :: _ => blockClass.contains c
     | [] => false
   | _ => false)

/-- Parser state shared by the line-scanning strategies 1 and 3:
the current role, the accumulated content lines, and the emitted messages. -/
structure PState where
  role : Option Sender
  content : List (List Char)
  out : List ParsedMessage
deriving DecidableEq, Repr

/-- Closing a turn: `if (currentRole && currentContent.length > 0)` then
sanitize the joined content, and push a Message `if (cleanContent)`. -/
def flushTurn (role : Option Sender) (content : List (List Char)) : List ParsedMessage :=
  match role with
  | none => []
  | some r =>
    if content.isEmpty then []
    else
      let c := cleanChars (joinNl content)
      if c.isEmpty then [] else [⟨r, String.mk c, ""⟩]

/-- One line of the strategy-1 (session-transcript) loop. -/
def s1Step (st : PState) (l : List Char) : PState :=
  if isHumanStart l then
    ⟨some .human, [l.drop 2], st.out ++ flushTurn st.role st.content⟩
  else if isAssistantStart l then
    ⟨some .assistant, [l.drop 2], st.out ++ flushTurn st.role st.content⟩
  else if isToolResultLine l then st
  else
    match st.role with
    | some _ => if isDecorationLine l then st else ⟨st.role, st.content ++ [l], st.out⟩
    | none => st

/-- Strategy 1: the Claude-Code session-transcript convention. -/
def parseStrategy1 (text : List Char) : List ParsedMessage :=
  let st := (splitNl text).foldl s1Step ⟨none, [], []⟩
  st.out ++ flushTurn st.role st.content

/-- Role labels of the header pattern `(Human|Assistant|User)`, with the
sender each normalizes to. -/
def headerRoles : List (List Char × Sender) :=
  [("human".data, .human), ("assistant".data, .assistant), ("user".data, .human)]

/-- Role labels of the simple pattern `(Human|Assistant|User|Claude)`. -/
def simpleRoles : List (List Char × Sender) :=
  [("human".data, .human), ("assistant".data, .assistant),
   ("user".data, .human), ("claude".data, .assistant)]

/-- Greedy `\s*$` tail with the `m` flag: the largest run `e` of leading
whitespace of `l` after which the position is an end of line (end of input
or just before `'\n'`), if any such position exists. -/
def greedyWsToEol (l : List Char) : Option Nat :=
  let w := countLeading isSpaceJs l
  (List.range (w + 1)).reverse.findSome? fun e =>
    match List.drop e l with
    | [] => some e
    | '\n' :: _ => some e
    | _ => none

/-- A match of `#{2,3}\s+(Human|Assistant|User)\s*$` (flags `gim`) starting
at this line-start position: returns the normalized sender and the length
of the matched text. -/
def headerMatchAt (l : List Char) : Option (Sender × Nat) :=
  let h := countLeading (· = '#') l
  if h = 2 ∨ h = 3 then
    let afterHash := List.drop h l
    let w := countLeading isSpaceJs afterHash
    if 1 ≤ w then
      let afterWs := List.drop w afterHash
      headerRoles.findSome? fun rolePair =>
        if ciPrefix rolePair.1 afterWs then
          match greedyWsToEol (List.drop rolePair.1.length afterWs) with
          | some e => some (rolePair.2, h + w + rolePair.1.length + e)
          | none => none
        else none
    else none
  else none

/-- A match of `(Human|Assistant|User|Claude):\s*$` (flags `gim`) starting
at this line-start position: normalized sender and match length. -/
def simpleMatchAt (l : List Char) : Option (Sender × Nat) :=
  simpleRoles.findSome? fun rolePair =>
    if ciPrefix rolePair.1 l then
      match List.drop rolePair.1.length l with
      | ':' :: rest =>
        match greedyWsToEol rest with
        | some e => some (rolePair.2, rolePair.1.length + 1 + e)
        | none => none
      | _ => none
    else none

/-- Scanner for `text.split(pattern)` with a `gim`-flagged, line-anchored
pattern: runs `f` at every line-start position outside previous matches;
returns the (segment, role) pairs and the trailing segment.  The `Nat`
argument skips the remaining characters of a recognized match. -/
def scanSplit (f : List Char → Option (Sender × Nat)) :
    Nat → Bool → List Char → List Char → List (List Char × Sender) × List Char
  | _ + 1, _, acc, [] => ([], acc.reverse)
  | n + 1, _, acc, _ :: cs => scanSplit f n false acc cs
  | 0, _, acc, [] => ([], acc.reverse)
  | 0, atStart, acc, c :: cs =>
    match if atStart then f (c :: cs) else none with
    | some (r, len) =>
      let rec2 := scanSplit f (len - 1) false [] cs
      ((acc.reverse, r) :: rec2.1, rec2.2)
    | none => scanSplit f 0 (c = '\n') (c :: acc) cs

/-- Messages of a split-based strategy (patterns 2 and 4): each matched
role label takes the following segment as its turn content; the segment is
trimmed, skipped if empty, sanitized, and skipped if the sanitized text is
empty. -/
def splitMessages (pairs : List (List Char × Sender)) (trailing : List Char) :
    List ParsedMessage :=
  let contents := (pairs.map Prod.fst).drop 1 ++ [trailing]
  ((pairs.map Prod.snd).zip contents).filterMap fun roleSeg =>
    let content := jsTrimC roleSeg.2
    if content.isEmpty then none
    else
      let c := cleanChars content
      if c.isEmpty then none else some ⟨roleSeg.1, String.mk c, ""⟩

/-- Strategy 2: the `## Human` / `### Assistant` header convention. -/
def parseStrategy2 (text : List Char) : List ParsedMessage :=
  let s := scanSplit headerMatchAt 0 true [] text
  if s.1.isEmpty then [] else splitMessages s.1 s.2

/-- A match of `^>\s*\*\*(Human|Assistant|User|Claude)\*\*:\s*(.*)/i`:
returns the normalized sender and the trailing capture of the line. -/
def matchQuoteStart (l : List Char) : Option (Sender × List Char) :=
  match l with
  | '>' :: rest =>
    let afterWs := rest.dropWhile isSpaceJs
    match afterWs with
    | '*' :: '*' :: afterStars =>
      simpleRoles.findSome? fun rolePair =>
        if ciPrefix rolePair.1 afterStars then
          match List.drop rolePair.1.length afterStars with
          | '*' :: '*' :: ':' :: afterColon =>
            some (rolePair.2, afterColon.dropWhile isSpaceJs)
          | _ => none
        else none
    | _ => none
  | _ => none

/-- Continuation lines of strategy 3: `line.replace(/^>\s?/, '')`. -/
def stripLeadingQuote (l : List Char) : List Char :=
  match l with
  | '>' :: c :: rest => if isSpaceJs c then rest else c :: rest
  | '>' :: [] => []
  | _ => l

/-- One line of the strategy-3 (blockquote-label) loop. -/
def s3Step (st : PState) (l : List Char) : PState :=
  match matchQuoteStart l with
  | some (r, restLine) =>
    ⟨some r, if restLine.isEmpty then [] else [restLine],
     st.out ++ flushTurn st.role st.content⟩
  | none =>
    match st.role with
    | some _ => ⟨st.role, st.content ++ [stripLeadingQuote l], st.out⟩
    | none => st

/-- Strategy 3: the `> **Human**:` blockquote-label convention. -/
def parseStrategy3 (text : List Char) : List ParsedMessage :=
  let st := (splitNl text).foldl s3Step ⟨none, [], []⟩
  st.out ++ flushTurn st.role st.content

/-- Strategy 4: the standalone `Human:` / `Assistant:` label convention. -/
def parseStrategy4 (text : List Char) : List ParsedMessage :=
  let s := scanSplit simpleMatchAt 0 true [] text
  if s.1.isEmpty then [] else splitMessages s.1 s.2

/-- Embedding of `parseMarkdown`: the four segmentation strategies tried
in source order, the first one that yields at least one message winning. -/
def parseMarkdown (s : String) : List ParsedMessage :=
  let text := s.data
  let r1 := parseStrategy1 text
  if ¬r1.isEmpty then r1
  else
    let r2 := parseStrategy2 text
    if ¬r2.isEmpty then r2
    else
      let r3 := parseStrategy3 text
      if ¬r3.isEmpty then r3
      else parseStrategy4 text

/-- The TS `ContentBlock` record (the fields `parseJsonMessages` reads):
a type tag and an optional text payload. -/
structure ContentBlock where
  type : String
  text : Option String
deriving DecidableEq, Repr

/-- The TS `ChatMessage` record (the fields `parseJsonMessages` reads). -/
structure ChatMessage where
  sender : Sender
  created_at : String
  text : String
  content : List ContentBlock
deriving DecidableEq, Repr

/-- The strings one turn contributes to `textParts`: the text of each
`text`-typed block with truthy text, in order, then the turn's own `text`
field if truthy. -/
def jsonTurnParts (msg : ChatMessage) : List String :=
  (msg.content.filterMap fun b =>
    if b.type = "text" then
      match b.text with
      | some t => if t = "" then none else some t
      | none => none
    else none) ++ (if msg.text = "" then [] else [msg.text])

/-- Embedding of `parseJsonMessages` under the declared TS types: per turn,
collect the text of `text`-typed blocks with truthy text, then the turn's
own `text` field if truthy, join with newline, trim, and emit a Message
exactly when the result is non-empty. -/
def parseJsonMessages : List ChatMessage → List ParsedMessage
  | [] => []
  | msg :: rest =>
    let text := jsTrimC (joinNl ((jsonTurnParts msg).map String.data))
    (if text.isEmpty then [] else [⟨msg.sender, String.mk text, msg.created_at⟩]) ++
      parseJsonMessages rest

/-- Per-turn contract of the JSON Importer as the specification states it:
concatenate the `text`-tagged content-segment strings in order, then the
turn's top-level text field when present, joined by newline; trim; emit a
Message with the turn's sender and `created_at` exactly when the trimmed
text is non-empty. -/
def jsonTurnMessage (msg : ChatMessage) : Option ParsedMessage :=
  let text := jsTrimC (joinNl ((jsonTurnParts msg).map String.data))
  if text.isEmpty then none
  else some ⟨msg.sender, String.mk text, msg.created_at⟩

/-- A JSON value, the result type of a successful `JSON.parse`. -/
inductive Json where
  | null
  | bool (b : Bool)
  | num (n : Int)
  | str (s : String)
  | arr (elems : List Json)
  | obj (fields : List (String × Json))

/-- Field access `v.name` on a parsed JSON value: `some` for a present
object field, `none` for everything `undefined`-like.  (Reading a field of
`null` throws in JS; the caller treats that path identically to `none`,
namely by falling through to markdown, so both are modelled as `none`.) -/
def jsonField (name : String) : Json → Option Json
  | .obj fields => (fields.find? fun f => f.1 = name).map Prod.snd
  | _ => none

/-- The `data.chat_messages && Array.isArray(data.chat_messages)` check:
the elements when the field holds an array (an empty array is truthy in
JS and passes), `none` otherwise. -/
def chatMessagesField (v : Json) : Option (List Json) :=
  match jsonField "chat_messages" v with
  | some (.arr elems) => some elems
  | _ => none

/-- Test for the JSON `null` value. -/
def jsonIsNull : Json → Bool
  | .null => true
  | _ => false

/-- JS string coercion of a value pushed into `textParts`, as `join`
applies it. -/
def jsToString : Json → String
  | .null => "null"
  | .bool b => if b then "true" else "false"
  | .num n => toString n
  | .str s => s
  | .arr elems =>
    String.intercalate "," (elems.attach.map fun e =>
      if jsonIsNull e.1 then "" else jsToString e.1)
  | .obj _ => "[object Object]"
decreasing_by
  have h := List.sizeOf_lt_of_mem e.2
  simp only [Json.arr.sizeOf_spec]
  omega

/-- JS truthiness of a parsed JSON value. -/
def jsTruthy : Json → Bool
  | .null => false
  | .bool b => b
  | .num n => n ≠ 0
  | .str s => s ≠ ""
  | .arr _ => true
  | .obj _ => true

/-- Runtime behaviour of `parseJsonMessages` on one raw `content` block:
`none` models a thrown TypeError (reading `.type` of `null`), `some`
the strings the block contributes to `textParts`. -/
def blockTexts : Json → Option (List String)
  | .null => none
  | .obj fields =>
    some (match (fields.find? fun f => f.1 = "type").map Prod.snd with
      | some (.str "text") =>
        match (fields.find? fun f => f.1 = "text").map Prod.snd with
        | some t => if jsTruthy t then [jsToString t] else []
        | none => []
      | _ => [])
  | _ => some []

/-- A message as the JSON path of `processInput` actually stores it at
runtime: the raw `sender` and `created_at` values (possibly absent or of
any JSON type) and the joined, trimmed text. -/
structure RawMessage where
  sender : Option Json
  text : String
  timestamp : Option Json

/-- Runtime behaviour of `parseJsonMessages` on the raw parsed array:
`none` models a thrown TypeError (non-object turn, missing or
non-iterable `content`, or a `null` block), which `processInput` catches. -/
def parseJsonMessagesDyn : List Json → Option (List RawMessage)
  | [] => some []
  | v :: rest =>
    match v with
    | .obj fields =>
      let contentVal := (fields.find? fun f => f.1 = "content").map Prod.snd
      let parts? : Option (List String) :=
        match contentVal with
        | some (.arr blocks) =>
          blocks.foldr (fun b acc =>
            match blockTexts b, acc with
            | some ts, some tail => some (ts ++ tail)
            | _, _ => none) (some [])
        | some (.str _) => some []
        | _ => none
      match parts? with
      | none => none
      | some blockParts =>
        let ownText := (fields.find? fun f => f.1 = "text").map Prod.snd
        let parts := blockParts ++
          (match ownText with
           | some t => if jsTruthy t then [jsToString t] else []
           | none => [])
        let text := jsTrimC (joinNl (parts.map String.data))
        match parseJsonMessagesDyn rest with
        | none => none
        | some tail =>
          if text.isEmpty then some tail
          else
            some (⟨(fields.find? fun f => f.1 = "sender").map Prod.snd,
                   String.mk text,
                   (fields.find? fun f => f.1 = "created_at").map Prod.snd⟩ :: tail)
    | _ => none

/-- The outcome of one `processInput` call, as observable through the
`parsedMessages` state and the status line. -/
inductive ProcResult where
  | jsonLoaded (msgs : List RawMessage)
  | markdownLoaded (msgs : List ParsedMessage)
  | unparseable

/-- The `trimmed.startsWith('{')` test of the format detector. -/
def startsWithBrace (s : String) : Bool := s.data.head? = some '\x7b'

/-- The JSON branch of `processInput` over an abstract `JSON.parse`
(`jp`, with `none` modelling a parse exception): `some` when the branch
returns early with a loaded message list, `none` when control falls
through to markdown parsing (parse failure, schema mismatch, or a raw
TypeError inside the `try`). -/
def jsonAttempt (jp : String → Option Json) (text : String) : Option (List RawMessage) :=
  let trimmed := jsTrimS text
  if startsWithBrace trimmed then
    match jp trimmed with
    | some v =>
      match chatMessagesField v with
      | some elems => parseJsonMessagesDyn elems
      | none => none
    | none => none
  else none

/-- Embedding of `processInput`: JSON branch first, then markdown, with
the zero-message markdown case reported as the unparseable status. -/
def processInput (jp : String → Option Json) (text : String) : ProcResult :=
  match jsonAttempt jp text with
  | some msgs => .jsonLoaded msgs
  | none =>
    let m := parseMarkdown (jsTrimS text)
    if m.isEmpty then .unparseable else .markdownLoaded m

/-- The value of the mutable `parsedMessages` state after one
`processInput` call, given its value before the call.  The body never
reads the previous value: both branches assign before returning. -/
def parsedMessagesAfter (jp : String → Option Json) (text : String)
    (_prev : ProcResult) : ProcResult :=
  match processInput jp text with
  | .jsonLoaded msgs => .jsonLoaded msgs
  | .markdownLoaded msgs => .markdownLoaded msgs
  | .unparseable => .markdownLoaded []

/-- Whether the status line `processInput` shows is the could-not-parse
error (rather than one of the two success messages). -/
def statusHasError (jp : String → Option Json) (text : String) : Bool :=
  match processInput jp text with
  | .unparseable => true
  | _ => false

/-- Embedding of `getSenderName`: the trimmed username, falling back to
`"User"` when blank, and the fixed `"Claude"` label for the assistant. -/
def getSenderName (username : String) : Sender → String
  | .human => if jsTrimS username = "" then "User" else jsTrimS username
  | .assistant => "Claude"

/-- Joining with a blank line, the embedding of JS `blocks.join('\n\n')`. -/
def joinBlank : List (List Char) → List Char
  | [] => []
  | [b] => b
  | b :: bs => b ++ '\n' :: '\n' :: joinBlank bs

/-- One exported message block, `> **<name>**: <text>`. -/
def quoteBlock (username : String) (m : ParsedMessage) : List Char :=
  "> **".data ++ ((getSenderName username m.sender).data ++ ("**: ".data ++ m.text.data))

/-- Embedding of `copyAsMarkdown`'s formatting: each message as
`> **<name>**: <text>`, messages joined by a blank line. -/
def copyAsMarkdown (username : String) (msgs : List ParsedMessage) : String :=
  String.mk (joinBlank (msgs.map (quoteBlock username)))


/-- Sanitize one raw turn and emit a Message exactly when the sanitized
text is non-empty: the `cleanMarkdownContent`-then-push step the source
performs at every markdown emission site. -/
def emitTurn (t : Sender × List Char) : Option ParsedMessage :=
  let c := cleanChars t.2
  if c.isEmpty then none else some ⟨t.1, String.mk c, ""⟩

/-- The raw counterpart of `flushTurn`: closing a turn records the turn's
raw concatenated text — the `currentContent.join('\n')` the source hands
to the sanitizer — without sanitizing it. -/
def rawFlush (role : Option Sender) (content : List (List Char)) :
    List (Sender × List Char) :=
  match role with
  | none => []
  | some r => if content.isEmpty then [] else [(r, joinNl content)]

/-- Scanning state of strategies 1 and 3 with raw turns in place of
sanitized Messages. -/
structure RawState where
  role : Option Sender
  content : List (List Char)
  turns : List (Sender × List Char)

/-- The strategy-1 line step with the sanitizer factored out: identical
branching to `s1Step`, recording raw turns. -/
def r1Step (st : RawState) (l : List Char) : RawState :=
  if isHumanStart l then
    ⟨some .human, [l.drop 2], st.turns ++ rawFlush st.role st.content⟩
  else if isAssistantStart l then
    ⟨some .assistant, [l.drop 2], st.turns ++ rawFlush st.role st.content⟩
  else if isToolResultLine l then st
  else
    match st.role with
    | some _ => if isDecorationLine l then st else ⟨st.role, st.content ++ [l], st.turns⟩
    | none => st

/-- The raw turns of strategy 1: its turn segmentation before sanitization. -/
def rawTurns1 (text : List Char) : List (Sender × List Char) :=
  let st := (splitNl text).foldl r1Step ⟨none, [], []⟩
  st.turns ++ rawFlush st.role st.content

/-- The strategy-3 line step with the sanitizer factored out. -/
def r3Step (st : RawState) (l : List Char) : RawState :=
  match matchQuoteStart l with
  | some (r, restLine) =>
    ⟨some r, if restLine.isEmpty then [] else [restLine],
     st.turns ++ rawFlush st.role st.content⟩
  | none =>
    match st.role with
    | some _ => ⟨st.role, st.content ++ [stripLeadingQuote l], st.turns⟩
    | none => st

/-- The raw turns of strategy 3. -/
def rawTurns3 (text : List Char) : List (Sender × List Char) :=
  let st := (splitNl text).foldl r3Step ⟨none, [], []⟩
  st.turns ++ rawFlush st.role st.content

/-- The raw turns of a split-based strategy (patterns 2 and 4): each
matched role label with the following segment trimmed — the
`parts[i+1]?.trim()` the source hands to the sanitizer — kept when
non-empty. -/
def rawSplitTurns (pairs : List (List Char × Sender)) (trailing : List Char) :
    List (Sender × List Char) :=
  ((pairs.map Prod.snd).zip ((pairs.map Prod.fst).drop 1 ++ [trailing])).filterMap
    fun roleSeg =>
      let content := jsTrimC roleSeg.2
      if content.isEmpty then none else some (roleSeg.1, content)

/-- The raw turns of strategy 2. -/
def rawTurns2 (text : List Char) : List (Sender × List Char) :=
  let s := scanSplit headerMatchAt 0 true [] text
  if s.1.isEmpty then [] else rawSplitTurns s.1 s.2

/-- The raw turns of strategy 4. -/
def rawTurns4 (text : List Char) : List (Sender × List Char) :=
  let s := scanSplit simpleMatchAt 0 true [] text
  if s.1.isEmpty then [] else rawSplitTurns s.1 s.2

/-- The markdown parser's turn segmentation with the sanitizer factored
out: the same strategy cascade and the same turn boundaries as
`parseMarkdown`, each turn carrying its raw concatenated text (the joined
content lines of strategies 1 and 3, the trimmed segment of strategies 2
and 4) as the source passes it to `cleanMarkdownContent`. -/
def rawTurns (text : List Char) : List (Sender × List Char) :=
  if ¬(parseStrategy1 text).isEmpty then rawTurns1 text
  else if ¬(parseStrategy2 text).isEmpty then rawTurns2 text
  else if ¬(parseStrategy3 text).isEmpty then rawTurns3 text
  else rawTurns4 text

/-! ### Basic lemmas about the embedding -/

theorem string_data_mk (l : List Char) : (String.mk l).data = l := rfl

theorem string_mk_ne_empty {c : List Char} (h : c.isEmpty = false) :
    String.mk c ≠ "" := by
  intro he
  have hd : c = [] := congrArg String.data he
  rw [hd] at h
  simp at h

/-- A message produced by a markdown strategy: its text is the sanitizer's
output on some raw turn text, and it is non-empty. -/
def sanitizedNonempty (m : ParsedMessage) : Prop :=
  (∃ raw : List Char, m.text = String.mk (cleanChars raw)) ∧ m.text ≠ ""

theorem flushTurn_sanitized (role : Option Sender) (content : List (List Char)) :
    ∀ m ∈ flushTurn role content, sanitizedNonempty m := by
  intro m hm
  cases role with
  | none => simp [flushTurn] at hm
  | some r =>
    simp only [flushTurn] at hm
    cases hc : content.isEmpty with
    | true => simp [hc] at hm
    | false =>
      cases h2 : (cleanChars (joinNl content)).isEmpty with
      | true => simp [hc, h2] at hm
      | false =>
        simp only [hc, h2, Bool.false_eq_true, if_false, List.mem_singleton] at hm
        subst hm
        exact ⟨⟨joinNl content, rfl⟩, string_mk_ne_empty h2⟩

theorem s1Step_out_sanitized (st : PState) (l : List Char)
    (h : ∀ m ∈ st.out, sanitizedNonempty m) :
    ∀ m ∈ (s1Step st l).out, sanitizedNonempty m := by
  intro m hm
  simp only [s1Step] at hm
  split at hm
  · rcases List.mem_append.1 hm with h1 | h2
    · exact h m h1
    · exact flushTurn_sanitized _ _ m h2
  · split at hm
    · rcases List.mem_append.1 hm with h1 | h2
      · exact h m h1
      · exact flushTurn_sanitized _ _ m h2
    · split at hm
      · exact h m hm
      · split at hm
        · split at hm
          · exact h m hm
          · exact h m hm
        · exact h m hm

theorem s3Step_out_sanitized (st : PState) (l : List Char)
    (h : ∀ m ∈ st.out, sanitizedNonempty m) :
    ∀ m ∈ (s3Step st l).out, sanitizedNonempty m := by
  intro m hm
  simp only [s3Step] at hm
  split at hm
  · rcases List.mem_append.1 hm with h1 | h2
    · exact h m h1
    · exact flushTurn_sanitized _ _ m h2
  · split at hm
    · exact h m hm
    · exact h m hm

theorem s1_foldl_sanitized (lines : List (List Char)) :
    ∀ st : PState, (∀ m ∈ st.out, sanitizedNonempty m) →
      ∀ m ∈ (lines.foldl s1Step st).out, sanitizedNonempty m := by
  induction lines with
  | nil => intro st h; simpa using h
  | cons l ls ih =>
    intro st h
    rw [List.foldl_cons]
    exact ih _ (s1Step_out_sanitized st l h)

theorem s3_foldl_sanitized (lines : List (List Char)) :
    ∀ st : PState, (∀ m ∈ st.out, sanitizedNonempty m) →
      ∀ m ∈ (lines.foldl s3Step st).out, sanitizedNonempty m := by
  induction lines with
  | nil => intro st h; simpa using h
  | cons l ls ih =>
    intro st h
    rw [List.foldl_cons]
    exact ih _ (s3Step_out_sanitized st l h)

theorem parseStrategy1_sanitized (text : List Char) :
    ∀ m ∈ parseStrategy1 text, sanitizedNonempty m := by
  intro m hm
  rcases List.mem_append.1 hm with h1 | h2
  · exact s1_foldl_sanitized (splitNl text) ⟨none, [], []⟩ (by simp) m h1
  · exact flushTurn_sanitized _ _ m h2

theorem parseStrategy3_sanitized (text : List Char) :
    ∀ m ∈ parseStrategy3 text, sanitizedNonempty m := by
  intro m hm
  rcases List.mem_append.1 hm with h1 | h2
  · exact s3_foldl_sanitized (splitNl text) ⟨none, [], []⟩ (by simp) m h1
  · exact flushTurn_sanitized _ _ m h2

theorem splitMessages_sanitized (pairs : List (List Char × Sender)) (trailing : List Char) :
    ∀ m ∈ splitMessages pairs trailing, sanitizedNonempty m := by
  intro m hm
  simp only [splitMessages, List.mem_filterMap] at hm
  obtain ⟨rs, _, heq⟩ := hm
  cases hc : (jsTrimC rs.2).isEmpty with
  | true => simp [hc] at heq
  | false =>
    cases h2 : (cleanChars (jsTrimC rs.2)).isEmpty with
    | true => simp [hc, h2] at heq
    | false =>
      simp only [hc, h2, Bool.false_eq_true, if_false, Option.some.injEq] at heq
      subst heq
      exact ⟨⟨jsTrimC rs.2, rfl⟩, string_mk_ne_empty h2⟩

theorem parseStrategy2_sanitized (text : List Char) :
    ∀ m ∈ parseStrategy2 text, sanitizedNonempty m := by
  intro m hm
  simp only [parseStrategy2] at hm
  split at hm
  · simp at hm
  · exact splitMessages_sanitized _ _ m hm

theorem parseStrategy4_sanitized (text : List Char) :
    ∀ m ∈ parseStrategy4 text, sanitizedNonempty m := by
  intro m hm
  simp only [parseStrategy4] at hm
  split at hm
  · simp at hm
  · exact splitMessages_sanitized _ _ m hm

theorem parseMarkdown_sanitized (s : String) :
    ∀ m ∈ parseMarkdown s, sanitizedNonempty m := by
  intro m hm
  simp only [parseMarkdown] at hm
  split at hm
  · exact parseStrategy1_sanitized _ m hm
  · split at hm
    · exact parseStrategy2_sanitized _ m hm
    · split at hm
      · exact parseStrategy3_sanitized _ m hm
      · exact parseStrategy4_sanitized _ m hm

theorem parseJsonMessages_text_ne (msgs : List ChatMessage) :
    ∀ m ∈ parseJsonMessages msgs, m.text ≠ "" := by
  induction msgs with
  | nil => simp [parseJsonMessages]
  | cons msg rest ih =>
    intro m hm
    simp only [parseJsonMessages] at hm
    rcases List.mem_append.1 hm with h1 | h2
    · cases hc : (jsTrimC (joinNl ((jsonTurnParts msg).map String.data))).isEmpty with
      | true => simp [hc] at h1
      | false =>
        simp only [hc, Bool.false_eq_true, if_false, List.mem_singleton] at h1
        subst h1
        exact string_mk_ne_empty hc
    · exact ih m h2

theorem parseJsonMessages_text_trimmed_join (msgs : List ChatMessage) :
    ∀ m ∈ parseJsonMessages msgs, ∃ turn ∈ msgs,
      m.text = jsTrimS (String.mk (joinNl ((jsonTurnParts turn).map String.data))) := by
  induction msgs with
  | nil => simp [parseJsonMessages]
  | cons msg rest ih =>
    intro m hm
    simp only [parseJsonMessages] at hm
    rcases List.mem_append.1 hm with h1 | h2
    · cases hc : (jsTrimC (joinNl ((jsonTurnParts msg).map String.data))).isEmpty with
      | true => simp [hc] at h1
      | false =>
        simp only [hc, Bool.false_eq_true, if_false, List.mem_singleton] at h1
        subst h1
        exact ⟨msg, List.mem_cons_self _ _, rfl⟩
    · obtain ⟨turn, ht, he⟩ := ih m h2
      exact ⟨turn, List.mem_cons_of_mem _ ht, he⟩


/-! ### Shape lemmas for the strategy-1 line classifiers -/

theorem isHumanStart_shape (l : List Char) (h : isHumanStart l = true) :
    ∃ c t, l = '>' :: ' ' :: c :: t ∧ c ≠ '>' := by
  unfold isHumanStart at h
  split at h
  · rename_i c t
    exact ⟨c, t, rfl, by simpa using h⟩
  · exact absurd h (by simp)

theorem isToolResultLine_shape (l : List Char) (h : isToolResultLine l = true) :
    ∃ t, l = ' ' :: ' ' :: '\u00E2' :: '\u017D' :: '\u00BF' :: t := by
  unfold isToolResultLine at h
  have hp := List.isPrefixOf_iff_prefix.1 h
  obtain ⟨t, ht⟩ := hp
  exact ⟨t, ht.symm⟩

theorem toolResult_not_human (l : List Char) (h : isToolResultLine l = true) :
    isHumanStart l = false := by
  obtain ⟨t, rfl⟩ := isToolResultLine_shape l h
  rfl

theorem toolResult_not_assistant (l : List Char) (h : isToolResultLine l = true) :
    isAssistantStart l = false := by
  obtain ⟨t, rfl⟩ := isToolResultLine_shape l h
  rfl

theorem humanStart_not_decoration (l : List Char) (h : isHumanStart l = true) :
    isDecorationLine l = false := by
  obtain ⟨c, t, rfl, _⟩ := isHumanStart_shape l h
  rfl

theorem toolResult_not_decoration (l : List Char) (h : isToolResultLine l = true) :
    isDecorationLine l = false := by
  obtain ⟨t, rfl⟩ := isToolResultLine_shape l h
  rfl

/-! ### C8: strategy-1 noise handling -/

/-- C8.  Under markdown strategy 1, a tool-result decoration line is
discarded entirely (it neither starts nor ends a turn), a decoration
(border/box-drawing) line is dropped even mid-turn, and every other
non-marker line is appended to the currently open turn. -/
theorem c8_strategy1_noise (st : PState) (l : List Char) :
    (isToolResultLine l = true → s1Step st l = st) ∧
    (st.role ≠ none → isDecorationLine l = true → isAssistantStart l = false →
      s1Step st l = st) ∧
    (st.role ≠ none → isHumanStart l = false → isAssistantStart l = false →
      isToolResultLine l = false → isDecorationLine l = false →
      s1Step st l = ⟨st.role, st.content ++ [l], st.out⟩) := by
  refine ⟨?_, ?_, ?_⟩
  · intro hT
    simp only [s1Step, toolResult_not_human l hT, toolResult_not_assistant l hT, hT,
      Bool.false_eq_true, if_false, if_true]
  · intro hrole hd hA
    have hH : isHumanStart l = false := by
      cases hh : isHumanStart l with
      | false => rfl
      | true => exact absurd hd (by simp [humanStart_not_decoration l hh])
    have hT : isToolResultLine l = false := by
      cases ht : isToolResultLine l with
      | false => rfl
      | true => exact absurd hd (by simp [toolResult_not_decoration l ht])
    obtain ⟨r, hr⟩ := Option.ne_none_iff_exists'.1 hrole
    simp only [s1Step, hH, hA, hT, Bool.false_eq_true, if_false, hr, hd, if_true]
  · intro hrole hH hA hT hd
    obtain ⟨r, hr⟩ := Option.ne_none_iff_exists'.1 hrole
    simp only [s1Step, hH, hA, hT, Bool.false_eq_true, if_false, hr, hd]

/-- C8 witness: a concrete tool-result line inside an open assistant turn
is skipped without touching the state. -/
theorem c8_strategy1_noise_witness :
    s1Step ⟨some Sender.assistant, [['h', 'i']], []⟩
        (toolResultPrefix ++ " x".data)
      = ⟨some Sender.assistant, [['h', 'i']], []⟩ :=
  (c8_strategy1_noise ⟨some Sender.assistant, [['h', 'i']], []⟩
    (toolResultPrefix ++ " x".data)).1 (by decide)

/-! ### C10: nested blockquote lines never start a turn -/

/-- C10.  Under markdown strategy 1, a line `"> >..."` (nested blockquote)
or a bare `">"` never starts a new human turn: with an open turn it is
appended as continuation text, with no open turn it is ignored. -/
theorem c10_nested_quote (st : PState) (l : List Char)
    (hshape : l = ['>'] ∨ ∃ rest, l = '>' :: ' ' :: '>' :: rest) :
    (st.role = none → s1Step st l = st) ∧
    (st.role ≠ none → s1Step st l = ⟨st.role, st.content ++ [l], st.out⟩) := by
  have hH : isHumanStart l = false := by
    rcases hshape with rfl | ⟨rest, rfl⟩ <;> rfl
  have hA : isAssistantStart l = false := by
    rcases hshape with rfl | ⟨rest, rfl⟩ <;> rfl
  have hT : isToolResultLine l = false := by
    rcases hshape with rfl | ⟨rest, rfl⟩ <;> rfl
  have hd : isDecorationLine l = false := by
    rcases hshape with rfl | ⟨rest, rfl⟩ <;> rfl
  constructor
  · intro hr
    simp only [s1Step, hH, hA, hT, Bool.false_eq_true, if_false, hr]
  · intro hr
    obtain ⟨r, hr'⟩ := Option.ne_none_iff_exists'.1 hr
    simp only [s1Step, hH, hA, hT, Bool.false_eq_true, if_false, hr', hd]

/-- C10 witness: a concrete nested-blockquote line is appended to an open
human turn unchanged. -/
theorem c10_nested_quote_witness :
    s1Step ⟨some Sender.human, [['a']], []⟩ ("> >nested".data)
      = ⟨some Sender.human, [['a'], "> >nested".data], []⟩ :=
  (c10_nested_quote ⟨some Sender.human, [['a']], []⟩ ("> >nested".data)
    (Or.inr ⟨"nested".data, rfl⟩)).2 (by simp)

/-! ### C4: fixed strategy priority order -/

/-- C4.  `parseMarkdown` tries the four strategies in the fixed order
(session transcript, header, blockquote label, plain label) and returns
the output of the first one yielding at least one message; in particular,
whenever strategy 1 yields a message, its output is returned unchanged and
the header convention is never consulted. -/
theorem c4_strategy_order (s : String) :
    (parseStrategy1 s.data ≠ [] → parseMarkdown s = parseStrategy1 s.data) ∧
    (parseStrategy1 s.data = [] → parseStrategy2 s.data ≠ [] →
      parseMarkdown s = parseStrategy2 s.data) ∧
    (parseStrategy1 s.data = [] → parseStrategy2 s.data = [] →
      parseStrategy3 s.data ≠ [] → parseMarkdown s = parseStrategy3 s.data) ∧
    (parseStrategy1 s.data = [] → parseStrategy2 s.data = [] →
      parseStrategy3 s.data = [] → parseMarkdown s = parseStrategy4 s.data) := by
  refine ⟨?_, ?_, ?_, ?_⟩
  · intro h1
    simp [parseMarkdown, List.isEmpty_iff, h1]
  · intro h1 h2
    simp [parseMarkdown, List.isEmpty_iff, h1, h2]
  · intro h1 h2 h3
    simp [parseMarkdown, List.isEmpty_iff, h1, h2, h3]
  · intro h1 h2 h3
    simp [parseMarkdown, List.isEmpty_iff, h1, h2, h3]

/-- C4 witness: on a transcript whose assistant turn contains a nested
`### Human` header line, strategy 1 yields a message, `parseMarkdown`
returns exactly strategy 1's segmentation, and the header line stays
inside the single assistant message instead of splitting it. -/
theorem c4_strategy_order_witness :
    parseStrategy1 (String.mk (assistantGlyph ++ " hi\n### Human\nyo".data)).data ≠ [] ∧
    parseMarkdown (String.mk (assistantGlyph ++ " hi\n### Human\nyo".data))
      = parseStrategy1 (String.mk (assistantGlyph ++ " hi\n### Human\nyo".data)).data ∧
    parseStrategy1 (String.mk (assistantGlyph ++ " hi\n### Human\nyo".data)).data
      = [⟨Sender.assistant, "hi\n### Human\nyo", ""⟩] :=
  ⟨by decide,
   (c4_strategy_order (String.mk (assistantGlyph ++ " hi\n### Human\nyo".data))).1 (by decide),
   by decide⟩


/-! ### C5: format detector fall-through and totality -/

/-- C5.  For input whose trimmed form starts with `'{'`, a failed JSON
deserialization or a missing/non-array `chat_messages` field makes
`processInput` parse that same trimmed input as markdown; and on every
input, `processInput` returns either the JSON importer's list or the
markdown parser's result, with the zero-message case surfaced as the
unparseable status rather than an exception. -/
theorem c5_format_detector (jp : String → Option Json) (text : String) :
    (startsWithBrace (jsTrimS text) = true →
      (jp (jsTrimS text) = none ∨
        ∀ v, jp (jsTrimS text) = some v → chatMessagesField v = none) →
      processInput jp text =
        if (parseMarkdown (jsTrimS text)).isEmpty then .unparseable
        else .markdownLoaded (parseMarkdown (jsTrimS text))) ∧
    ((∃ msgs, processInput jp text = .jsonLoaded msgs) ∨
      (processInput jp text = .markdownLoaded (parseMarkdown (jsTrimS text)) ∧
        parseMarkdown (jsTrimS text) ≠ []) ∨
      (processInput jp text = .unparseable ∧ parseMarkdown (jsTrimS text) = [])) := by
  constructor
  · intro hb hfail
    have hnone : jsonAttempt jp text = none := by
      rcases hfail with hjp | hcm
      · simp [jsonAttempt, hb, hjp]
      · cases hjp : jp (jsTrimS text) with
        | none => simp [jsonAttempt, hb, hjp]
        | some v => simp [jsonAttempt, hb, hjp, hcm v hjp]
    simp only [processInput, hnone]
  · cases ha : jsonAttempt jp text with
    | some msgs => exact Or.inl ⟨msgs, by simp [processInput, ha]⟩
    | none =>
      cases hm : (parseMarkdown (jsTrimS text)).isEmpty with
      | true =>
        refine Or.inr (Or.inr ⟨by simp [processInput, ha, hm], ?_⟩)
        simpa [List.isEmpty_iff] using hm
      | false =>
        refine Or.inr (Or.inl ⟨by simp [processInput, ha, hm], ?_⟩)
        simpa [List.isEmpty_iff] using hm

/-- C5 witness: input starting with `'{'` under an always-failing
`JSON.parse` is parsed as markdown (here via the strategy-1 human marker
on its second line). -/
theorem c5_format_detector_witness :
    processInput (fun _ => none) "\x7b\n> hi"
      = .markdownLoaded (parseMarkdown (jsTrimS "\x7b\n> hi")) := by
  have h := (c5_format_detector (fun _ => none) "\x7b\n> hi").1 (by decide) (Or.inl rfl)
  rw [h]
  rw [if_neg (by decide : ¬((parseMarkdown (jsTrimS "\x7b\n> hi")).isEmpty = true))]

/-! ### C9: the unparseable path overwrites the message state -/

/-- C9.  When the JSON branch falls through and all four markdown
strategies yield zero messages, the `parsedMessages` state has been
overwritten with the empty sequence (whatever it held before) and the
unparseable-input error status is shown. -/
theorem c9_unparseable_clears_state (jp : String → Option Json) (text : String)
    (prev : ProcResult)
    (hjson : jsonAttempt jp text = none)
    (hmd : parseMarkdown (jsTrimS text) = []) :
    parsedMessagesAfter jp text prev = .markdownLoaded [] ∧
      statusHasError jp text = true := by
  have hp : processInput jp text = .unparseable := by
    simp [processInput, hjson, hmd]
  exact ⟨by simp [parsedMessagesAfter, hp], by simp [statusHasError, hp]⟩

/-- C9 witness: after loading a message, feeding unparseable input leaves
the state holding the empty sequence, not the earlier message. -/
theorem c9_unparseable_clears_state_witness :
    parsedMessagesAfter (fun _ => none) "no markers here"
        (.markdownLoaded [⟨Sender.human, "old", ""⟩]) = .markdownLoaded [] ∧
      statusHasError (fun _ => none) "no markers here" = true :=
  c9_unparseable_clears_state (fun _ => none) "no markers here"
    (.markdownLoaded [⟨Sender.human, "old", ""⟩]) rfl (by decide)

/-! ### C6: the JSON importer contract -/

/-- C6.  `parseJsonMessages` is exactly the per-turn filter-map of the
importer contract: for each turn in input order, the `text`-tagged
content-segment strings followed by the turn's own truthy `text` field are
joined by newline and trimmed, and a Message with the turn's sender and
`created_at` is emitted exactly when the result is non-empty. -/
theorem c6_json_importer (msgs : List ChatMessage) :
    parseJsonMessages msgs = msgs.filterMap jsonTurnMessage := by
  induction msgs with
  | nil => rfl
  | cons msg rest ih =>
    simp only [parseJsonMessages, List.filterMap_cons, jsonTurnMessage, ih]
    cases hc : (jsTrimC (joinNl ((jsonTurnParts msg).map String.data))).isEmpty <;>
      simp [hc]

/-! ### C7: the non-empty-text invariant -/

/-- C7.  Every Message emitted by any parsing path (each of the four
markdown strategies, their combination, and the JSON importer) has
non-empty text, and an empty turn (a marker immediately followed by
another marker) is dropped silently without affecting the adjacent
turn. -/
theorem c7_nonempty_invariant (s : String) (msgs : List ChatMessage)
    (m : ParsedMessage) :
    (m ∈ parseStrategy1 s.data → m.text ≠ "") ∧
    (m ∈ parseStrategy2 s.data → m.text ≠ "") ∧
    (m ∈ parseStrategy3 s.data → m.text ≠ "") ∧
    (m ∈ parseStrategy4 s.data → m.text ≠ "") ∧
    (m ∈ parseMarkdown s → m.text ≠ "") ∧
    (m ∈ parseJsonMessages msgs → m.text ≠ "") ∧
    parseMarkdown (String.mk (assistantGlyph ++ '\n' :: (assistantGlyph ++ " hi".data)))
      = [⟨Sender.assistant, "hi", ""⟩] :=
  ⟨fun h => (parseStrategy1_sanitized _ m h).2,
   fun h => (parseStrategy2_sanitized _ m h).2,
   fun h => (parseStrategy3_sanitized _ m h).2,
   fun h => (parseStrategy4_sanitized _ m h).2,
   fun h => (parseMarkdown_sanitized _ m h).2,
   fun h => parseJsonMessages_text_ne msgs m h,
   by decide⟩

/-- C7 witness: the message strategy 1 emits on `"> hi"` has non-empty
text. -/
theorem c7_nonempty_invariant_witness :
    (⟨Sender.human, "hi", ""⟩ : ParsedMessage).text ≠ "" :=
  (c7_nonempty_invariant "> hi" [] ⟨Sender.human, "hi", ""⟩).1 (by decide)

/-! ### C1: scope of the Content Sanitizer -/

/-- C1 counterexample: a JSON turn whose text is a bare tool-invocation
line is emitted verbatim by the JSON importer, while the Content Sanitizer
applied to the same raw turn text yields the empty string — so the
importer does not apply the sanitizer. -/
theorem c1_counterexample :
    (parseJsonMessages [⟨Sender.human, "t", "Bash(ls)", []⟩]).map (fun m => m.text)
        = ["Bash(ls)"] ∧
      cleanMarkdownContent "Bash(ls)" = "" ∧
      (parseJsonMessages [⟨Sender.human, "t", "Bash(ls)", []⟩]).map (fun m => m.text)
        ≠ [cleanMarkdownContent "Bash(ls)"] := by
  refine ⟨by decide, by decide, by decide⟩

/- The amended C1 theorem `c1_sanitizer_scope`, which anchors each
markdown Message to its turn in the sanitizer-free segmentation
`rawTurns`, appears at the end of the file after the factorization
theorem `parseMarkdown_eq_raw` it relies on. -/

/-! ### C2: the markdown round trip fails -/

/-- C2 counterexample: exporting the single assistant message `"hi"` with
the default display names and re-parsing with `parseMarkdown` yields a
*human* message with label-prefixed text, so the round trip reproduces
neither sender nor text. -/
theorem c2_roundtrip_counterexample :
    (parseMarkdown (copyAsMarkdown "" [⟨Sender.assistant, "hi", ""⟩])).map
        (fun m => (m.sender, m.text))
      = [(Sender.human, "**Claude**: hi")] ∧
    (parseMarkdown (copyAsMarkdown "" [⟨Sender.assistant, "hi", ""⟩])).map
        (fun m => (m.sender, m.text))
      ≠ [(Sender.assistant, "hi")] := by
  refine ⟨by decide, by decide⟩

/-! ### C3: the sanitizer is not idempotent -/

/-- C3 counterexample: on `"  Bash(x)"` the first sanitizer pass only
trims (the tool-line pattern is line-anchored and the line starts with
spaces), exposing `"Bash(x)"`, which a second pass removes entirely. -/
theorem c3_idempotence_counterexample :
    cleanMarkdownContent (cleanMarkdownContent "  Bash(x)")
      ≠ cleanMarkdownContent "  Bash(x)" := by decide


/-! ### Lemmas for the restricted idempotence of the sanitizer -/

theorem isPrefixOf_head {op l : List Char} {c : Char} (hop : op.head? = some c)
    (h : op.isPrefixOf l = true) : l.head? = some c := by
  obtain ⟨t, ht⟩ := List.isPrefixOf_iff_prefix.1 h
  subst ht
  cases op with
  | nil => simp at hop
  | cons a as => simpa using hop

theorem rdAux_id_of_head_not_mem (op cl : List Char) (c : Char)
    (hop : op.head? = some c) :
    ∀ l : List Char, c ∉ l → rdAux op cl 0 l = l := by
  intro l
  induction l with
  | nil => intro _; rfl
  | cons a as ih =>
    intro h
    have hnp : op.isPrefixOf (a :: as) = false := by
      cases hp : op.isPrefixOf (a :: as) with
      | false => rfl
      | true =>
        have ha := isPrefixOf_head hop hp
        simp only [List.head?_cons, Option.some.injEq] at ha
        exact absurd (ha ▸ List.mem_cons_self a as) h
    simp only [rdAux, hnp, Bool.false_eq_true, if_false]
    rw [ih fun hm => h (List.mem_cons_of_mem _ hm)]

theorem antmlAux_id_of_not_mem :
    ∀ l : List Char, '<' ∉ l → antmlAux 0 l = l := by
  intro l
  induction l with
  | nil => intro _; rfl
  | cons a as ih =>
    intro h
    have ha : (a = '<') = False := by
      simp only [eq_iff_iff, iff_false]
      intro he
      exact h (he ▸ List.mem_cons_self a as)
    simp only [antmlAux, ha, if_false]
    rw [ih fun hm => h (List.mem_cons_of_mem _ hm)]

theorem isToolLine1_paren {l : List Char} (h : isToolLine1 l = true) : '(' ∈ l := by
  simp only [isToolLine1, List.any_eq_true, Bool.and_eq_true] at h
  obtain ⟨name, _, ⟨hp, _⟩, _⟩ := h
  exact (List.isPrefixOf_iff_prefix.1 hp).subset
    (List.mem_append.2 (Or.inr (List.mem_singleton.2 rfl)))

theorem isToolLine2_paren {l : List Char} (h : isToolLine2 l = true) : '(' ∈ l := by
  simp only [isToolLine2, Bool.and_eq_true] at h
  obtain ⟨_, _, hp, _⟩ := h
  have hm : '(' ∈ (" (MCP)(".data : List Char) := by decide
  exact List.mem_of_mem_drop (List.mem_of_mem_drop
    ((List.isPrefixOf_iff_prefix.1 hp).subset hm))

theorem isToolLine3_paren {l : List Char} (h : isToolLine3 l = true) : '(' ∈ l := by
  simp only [isToolLine3, Bool.and_eq_true, decide_eq_true_eq] at h
  obtain ⟨-, ⟨hh, -⟩, -⟩ := h
  have hm : '(' ∈ List.drop (List.takeWhile isWordChar (List.drop 5 l)).length
      (List.drop 5 l) := by
    cases hd : List.drop (List.takeWhile isWordChar (List.drop 5 l)).length
        (List.drop 5 l) with
    | nil => rw [hd] at hh; simp at hh
    | cons b bs =>
      rw [hd] at hh
      simp only [List.head?_cons, Option.some.injEq] at hh
      exact hh ▸ List.mem_cons_self b bs
  exact List.mem_of_mem_drop (List.mem_of_mem_drop hm)

theorem splitNl_ne_nil (l : List Char) : splitNl l ≠ [] := by
  induction l with
  | nil => simp [splitNl]
  | cons c cs ih =>
    by_cases hc : c = '\n'
    · subst hc; simp [splitNl]
    · simp only [splitNl, hc]
      cases hs : splitNl cs with
      | nil => exact absurd hs ih
      | cons a t => simp [List.modifyHead]

theorem joinNl_splitNl (l : List Char) : joinNl (splitNl l) = l := by
  induction l with
  | nil => rfl
  | cons c cs ih =>
    by_cases hc : c = '\n'
    · subst hc
      simp only [splitNl]
      cases hs : splitNl cs with
      | nil => exact absurd hs (splitNl_ne_nil cs)
      | cons a t =>
        rw [hs] at ih
        simp only [joinNl, List.nil_append]
        rw [ih]
    · simp only [splitNl, hc]
      cases hs : splitNl cs with
      | nil => exact absurd hs (splitNl_ne_nil cs)
      | cons a t =>
        rw [hs] at ih
        cases t with
        | nil => simp only [List.modifyHead, joinNl] at ih ⊢; rw [ih]
        | cons b t2 =>
          simp only [List.modifyHead, joinNl, List.cons_append] at ih ⊢
          rw [ih]

theorem mem_splitNl {l lin : List Char} {c : Char}
    (hl : lin ∈ splitNl l) (hc : c ∈ lin) : c ∈ l := by
  induction l generalizing lin with
  | nil =>
    simp only [splitNl, List.mem_singleton] at hl
    subst hl
    simp at hc
  | cons a as ih =>
    by_cases ha : a = '\n'
    · subst ha
      simp only [splitNl, List.mem_cons] at hl
      rcases hl with rfl | hl
      · simp at hc
      · exact List.mem_cons_of_mem _ (ih hl hc)
    · simp only [splitNl, ha] at hl
      cases hs : splitNl as with
      | nil => exact absurd hs (splitNl_ne_nil as)
      | cons b t =>
        rw [hs] at hl
        simp only [List.modifyHead, List.mem_cons] at hl
        rcases hl with rfl | hl
        · rcases List.mem_cons.1 hc with rfl | hcm
          · exact List.mem_cons_self _ _
          · exact List.mem_cons_of_mem _ (ih (hs ▸ List.mem_cons_self b t) hcm)
        · exact List.mem_cons_of_mem _ (ih (hs ▸ List.mem_cons_of_mem b hl) hc)

theorem replaceLines_id (p : List Char → Bool) (l : List Char)
    (h : ∀ lin ∈ splitNl l, p lin = false) : replaceLines p l = l := by
  unfold replaceLines
  rw [List.map_congr_left (g := id) fun lin hm => by simp [h lin hm]]
  rw [List.map_id, joinNl_splitNl]

/-- Scanner deciding that every newline run of the tail is of length at
most 2, where `p` counts the newlines immediately preceding the tail. -/
def nlChk : Nat → List Char → Bool
  | p, [] => decide (p ≤ 2)
  | p, c :: cs => if c = '\n' then nlChk (p + 1) cs else decide (p ≤ 2) && nlChk 0 cs

theorem nlChk_le (l : List Char) : ∀ p, nlChk p l = true → p ≤ 2 := by
  induction l with
  | nil => intro p h; simpa [nlChk] using h
  | cons c cs ih =>
    intro p h
    by_cases hc : c = '\n'
    · simp only [nlChk, hc, if_true] at h
      have := ih (p + 1) h
      omega
    · simp only [nlChk, hc, if_false, Bool.and_eq_true, decide_eq_true_eq] at h
      exact h.1

theorem nlChk_replicate_append (t : List Char) :
    ∀ k q, nlChk q (List.replicate k '\n' ++ t) = nlChk (q + k) t := by
  intro k
  induction k with
  | zero => intro q; simp
  | succ k ih =>
    intro q
    rw [List.replicate_succ, List.cons_append]
    show nlChk q ('\n' :: (List.replicate k '\n' ++ t)) = _
    simp only [nlChk, if_pos rfl]
    rw [ih (q + 1), show q + 1 + k = q + (k + 1) from by omega]
    simp

theorem collapseAux_ok (l : List Char) : ∀ p, nlChk 0 (collapseAux p l) = true := by
  induction l with
  | nil =>
    intro p
    simp only [collapseAux]
    rw [← List.append_nil (List.replicate (min p 2) '\n'), nlChk_replicate_append]
    simp only [nlChk, Nat.zero_add, decide_eq_true_eq]
    omega
  | cons c cs ih =>
    intro p
    by_cases hc : c = '\n'
    · subst hc
      simp only [collapseAux, if_pos rfl]
      exact ih (p + 1)
    · simp only [collapseAux, hc, if_false]
      rw [nlChk_replicate_append, Nat.zero_add]
      simp only [nlChk, hc, if_false, Bool.and_eq_true, decide_eq_true_eq]
      exact ⟨by omega, ih 0⟩

theorem collapseAux_id (l : List Char) :
    ∀ p, p ≤ 2 → nlChk p l = true → collapseAux p l = List.replicate p '\n' ++ l := by
  induction l with
  | nil =>
    intro p hp _
    simp only [collapseAux, List.append_nil]
    rw [min_eq_left hp]
  | cons c cs ih =>
    intro p hp h
    by_cases hc : c = '\n'
    · subst hc
      simp only [nlChk, if_pos rfl] at h
      have hp1 : p + 1 ≤ 2 := nlChk_le cs (p + 1) h
      simp only [collapseAux, if_pos rfl]
      rw [ih (p + 1) hp1 h, List.replicate_succ', List.append_assoc]
      rfl
    · simp only [nlChk, hc, if_false, Bool.and_eq_true, decide_eq_true_eq] at h
      simp only [collapseAux, hc, if_false]
      rw [ih 0 (by omega) h.2, min_eq_left hp]
      rfl

theorem collapseNl_ok (l : List Char) : nlChk 0 (collapseNl l) = true :=
  collapseAux_ok l 0

theorem collapseNl_id {l : List Char} (h : nlChk 0 l = true) : collapseNl l = l := by
  simpa [collapseNl] using collapseAux_id l 0 (by omega) h

theorem nlChk_mono (l : List Char) : ∀ p, nlChk (p + 1) l = true → nlChk p l = true := by
  induction l with
  | nil =>
    intro p h
    simp only [nlChk, decide_eq_true_eq] at h ⊢
    omega
  | cons c cs ih =>
    intro p h
    by_cases hc : c = '\n'
    · simp only [nlChk, hc, if_true] at h ⊢
      exact ih (p + 1) h
    · simp only [nlChk, hc, if_false, Bool.and_eq_true, decide_eq_true_eq] at h ⊢
      exact ⟨by omega, h.2⟩

theorem nlChk_dropWhile {l : List Char} (h : nlChk 0 l = true) :
    nlChk 0 (l.dropWhile isSpaceJs) = true := by
  induction l with
  | nil => exact h
  | cons c cs ih =>
    by_cases hs : isSpaceJs c
    · rw [List.dropWhile_cons_of_pos hs]
      apply ih
      by_cases hc : c = '\n'
      · simp only [nlChk, hc, if_true] at h
        exact nlChk_mono cs 0 h
      · simp only [nlChk, hc, if_false, Bool.and_eq_true] at h
        exact h.2
    · rwa [List.dropWhile_cons_of_neg hs]

theorem nlChk_take (l : List Char) :
    ∀ p n, nlChk p l = true → nlChk p (l.take n) = true := by
  induction l with
  | nil => intro p n h; simpa using h
  | cons c cs ih =>
    intro p n h
    cases n with
    | zero =>
      simp only [List.take_zero, nlChk, decide_eq_true_eq]
      exact nlChk_le _ p h
    | succ n =>
      rw [List.take_succ_cons]
      by_cases hc : c = '\n'
      · simp only [nlChk, hc, if_true] at h ⊢
        exact ih (p + 1) n h
      · simp only [nlChk, hc, if_false, Bool.and_eq_true] at h ⊢
        exact ⟨h.1, ih 0 n h.2⟩

theorem jsTrimR_self_prefixed (l : List Char) : jsTrimR l <+: l := by
  have h := List.reverse_prefix.2
    (show List.dropWhile isSpaceJs l.reverse <:+ l.reverse from
      List.dropWhile_suffix isSpaceJs)
  rwa [List.reverse_reverse] at h

theorem nlChk_of_prefix {l t : List Char} (hp : t <+: l) (h : nlChk 0 l = true) :
    nlChk 0 t = true := by
  rw [List.prefix_iff_eq_take.1 hp]
  exact nlChk_take l 0 t.length h

theorem nlChk_jsTrimC {l : List Char} (h : nlChk 0 l = true) :
    nlChk 0 (jsTrimC l) = true :=
  nlChk_of_prefix (jsTrimR_self_prefixed (jsTrimL l)) (nlChk_dropWhile h)

theorem dropWhile_dropWhile (p : Char → Bool) (l : List Char) :
    List.dropWhile p (List.dropWhile p l) = List.dropWhile p l := by
  induction l with
  | nil => rfl
  | cons c cs ih =>
    by_cases hc : p c
    · rw [List.dropWhile_cons_of_pos hc]
      exact ih
    · rw [List.dropWhile_cons_of_neg hc, List.dropWhile_cons_of_neg hc]

theorem head_dropWhile_false (p : Char → Bool) (l : List Char) :
    ∀ c, (List.dropWhile p l).head? = some c → p c = false := by
  induction l with
  | nil => intro c h; simp at h
  | cons a as ih =>
    intro c h
    by_cases ha : p a
    · rw [List.dropWhile_cons_of_pos ha] at h
      exact ih c h
    · rw [List.dropWhile_cons_of_neg ha] at h
      simp only [List.head?_cons, Option.some.injEq] at h
      subst h
      simpa using ha

theorem jsTrimL_jsTrimR_jsTrimL (x : List Char) :
    jsTrimL (jsTrimR (jsTrimL x)) = jsTrimR (jsTrimL x) := by
  cases hr : jsTrimR (jsTrimL x) with
  | nil => rfl
  | cons b bs =>
    have hpre : (b :: bs) <+: jsTrimL x := hr ▸ jsTrimR_self_prefixed (jsTrimL x)
    obtain ⟨t, ht⟩ := hpre
    have hb : (jsTrimL x).head? = some b := by rw [← ht]; rfl
    have hpb : isSpaceJs b = false := head_dropWhile_false isSpaceJs x b hb
    unfold jsTrimL
    rw [List.dropWhile_cons_of_neg (by simp [hpb])]

theorem jsTrimR_idem (l : List Char) : jsTrimR (jsTrimR l) = jsTrimR l := by
  unfold jsTrimR
  rw [List.reverse_reverse, dropWhile_dropWhile]

theorem jsTrimC_idem (l : List Char) : jsTrimC (jsTrimC l) = jsTrimC l := by
  unfold jsTrimC
  rw [jsTrimL_jsTrimR_jsTrimL, jsTrimR_idem]

theorem mem_collapseAux (l : List Char) :
    ∀ p c, c ∈ collapseAux p l → c ∈ l ∨ c = '\n' := by
  induction l with
  | nil =>
    intro p c h
    simp only [collapseAux] at h
    exact Or.inr (List.eq_of_mem_replicate h)
  | cons a as ih =>
    intro p c h
    by_cases ha : a = '\n'
    · subst ha
      simp only [collapseAux, if_pos rfl] at h
      rcases ih (p + 1) c h with hm | he
      · exact Or.inl (List.mem_cons_of_mem _ hm)
      · exact Or.inr he
    · simp only [collapseAux, ha, if_false] at h
      rcases List.mem_append.1 h with hm | hm
      · exact Or.inr (List.eq_of_mem_replicate hm)
      · rcases List.mem_cons.1 hm with rfl | hm2
        · exact Or.inl (List.mem_cons_self _ _)
        · rcases ih 0 c hm2 with hmm | he
          · exact Or.inl (List.mem_cons_of_mem _ hmm)
          · exact Or.inr he

theorem mem_jsTrimC {l : List Char} {c : Char} (h : c ∈ jsTrimC l) : c ∈ l := by
  have h1 : c ∈ ((jsTrimL l).reverse.dropWhile isSpaceJs).reverse := h
  rw [List.mem_reverse] at h1
  have h2 : c ∈ (jsTrimL l).reverse := (List.dropWhile_sublist isSpaceJs).mem h1
  rw [List.mem_reverse] at h2
  exact (List.dropWhile_sublist isSpaceJs).mem h2


/-- On text containing none of `'<'`, `'`'`, `'('`, every removal pass of
the sanitizer is the identity: only newline collapsing and trimming act. -/
theorem cleanChars_plain (l : List Char)
    (h : ∀ c ∈ l, c ≠ '<' ∧ c ≠ '`' ∧ c ≠ '(') :
    cleanChars l = jsTrimC (collapseNl l) := by
  have hlt : '<' ∉ l := fun hm => (h _ hm).1 rfl
  have hbt : '`' ∉ l := fun hm => (h _ hm).2.1 rfl
  have hpar : ∀ lin ∈ splitNl l,
      isToolLine1 lin = false ∧ isToolLine2 lin = false ∧ isToolLine3 lin = false := by
    intro lin hm
    refine ⟨?_, ?_, ?_⟩
    · cases hx : isToolLine1 lin with
      | false => rfl
      | true => exact absurd rfl ((h _ (mem_splitNl hm (isToolLine1_paren hx))).2.2)
    · cases hx : isToolLine2 lin with
      | false => rfl
      | true => exact absurd rfl ((h _ (mem_splitNl hm (isToolLine2_paren hx))).2.2)
    · cases hx : isToolLine3 lin with
      | false => rfl
      | true => exact absurd rfl ((h _ (mem_splitNl hm (isToolLine3_paren hx))).2.2)
  unfold cleanChars
  rw [show removeDelim "<function_calls>".data "</function_calls>".data l = l from
    rdAux_id_of_head_not_mem "<function_calls>".data "</function_calls>".data '<' (by decide) l hlt]
  rw [show removeDelim "<function_results>".data "</function_results>".data l = l from
    rdAux_id_of_head_not_mem "<function_results>".data "</function_results>".data '<' (by decide) l hlt]
  rw [show removeAntml l = l from antmlAux_id_of_not_mem l hlt]
  rw [show removeDelim "```tool_use".data "```".data l = l from
    rdAux_id_of_head_not_mem "```tool_use".data "```".data '`' (by decide) l hbt]
  rw [show removeDelim "```tool_result".data "```".data l = l from
    rdAux_id_of_head_not_mem "```tool_result".data "```".data '`' (by decide) l hbt]
  rw [show removeDelim "<system-reminder>".data "</system-reminder>".data l = l from
    rdAux_id_of_head_not_mem "<system-reminder>".data "</system-reminder>".data '<' (by decide) l hlt]
  rw [replaceLines_id isToolLine1 l fun lin hm => (hpar lin hm).1]
  rw [replaceLines_id isToolLine2 l fun lin hm => (hpar lin hm).2.1]
  rw [replaceLines_id isToolLine3 l fun lin hm => (hpar lin hm).2.2]

/-- C3 amended: the sanitizer is not idempotent in general (see the
counterexample), but it is idempotent on every input free of the
characters `'<'`, `` '`' `` and `'('`, where only its newline-collapsing
and trimming stages act. -/
theorem c3_idempotent_amended (s : String)
    (h : ∀ c ∈ s.data, c ≠ '<' ∧ c ≠ '`' ∧ c ≠ '(') :
    cleanMarkdownContent (cleanMarkdownContent s) = cleanMarkdownContent s := by
  have h1 := cleanChars_plain s.data h
  have hmem : ∀ c ∈ jsTrimC (collapseNl s.data), c ≠ '<' ∧ c ≠ '`' ∧ c ≠ '(' := by
    intro c hc
    rcases mem_collapseAux s.data 0 c (mem_jsTrimC hc) with hm | rfl
    · exact h c hm
    · exact ⟨by decide, by decide, by decide⟩
  have h2 := cleanChars_plain _ hmem
  have h3 : collapseNl (jsTrimC (collapseNl s.data)) = jsTrimC (collapseNl s.data) :=
    collapseNl_id (nlChk_jsTrimC (collapseNl_ok s.data))
  have hc : cleanChars (cleanChars s.data) = cleanChars s.data := by
    rw [h1, h2, h3, jsTrimC_idem]
  simp only [cleanMarkdownContent, string_data_mk]
  exact congrArg String.mk hc

/-- C3 amended witness: a whitespace-collapsing input without the special
characters is sanitized idempotently. -/
theorem c3_idempotent_amended_witness :
    cleanMarkdownContent (cleanMarkdownContent " x\n\n\n\ny ")
      = cleanMarkdownContent " x\n\n\n\ny " :=
  c3_idempotent_amended " x\n\n\n\ny " (by decide)


/-! ### Lemmas for the restricted strategy-3 round trip -/

theorem modifyHead_modifyHead (f g : List Char → List Char) (l : List (List Char)) :
    (l.modifyHead g).modifyHead f = l.modifyHead (fun x => f (g x)) := by
  cases l <;> rfl

theorem splitNl_append_newline (a b : List Char) :
    splitNl (a ++ '\n' :: b) = splitNl a ++ splitNl b := by
  induction a with
  | nil => simp [splitNl]
  | cons c a' ih =>
    by_cases hc : c = '\n'
    · subst hc
      show [] :: splitNl (a' ++ '\n' :: b) = ([] :: splitNl a') ++ splitNl b
      rw [ih]
      rfl
    · simp only [List.cons_append, splitNl, hc, ih]
      cases hs : splitNl a' with
      | nil => exact absurd hs (splitNl_ne_nil a')
      | cons x xs => simp [List.modifyHead]

theorem splitNl_prefix (p t : List Char) (hp : ∀ c ∈ p, c ≠ '\n') :
    splitNl (p ++ t) = (splitNl t).modifyHead (p ++ ·) := by
  induction p with
  | nil =>
    cases hs : splitNl t with
    | nil => exact absurd hs (splitNl_ne_nil t)
    | cons x xs =>
      simp only [List.nil_append]
      rw [hs]
      simp [List.modifyHead]
  | cons c p' ih =>
    have hc : c ≠ '\n' := hp c (List.mem_cons_self _ _)
    simp only [List.cons_append, splitNl, hc,
      ih fun d hd => hp d (List.mem_cons_of_mem _ hd), modifyHead_modifyHead]

theorem joinNl_append_empty (ls : List (List Char)) (h : ls ≠ []) :
    joinNl (ls ++ [[]]) = joinNl ls ++ ['\n'] := by
  induction ls with
  | nil => exact absurd rfl h
  | cons l ls' ih =>
    cases ls' with
    | nil => rfl
    | cons l2 rest =>
      have ih2 := ih (by simp)
      show joinNl (l :: ((l2 :: rest) ++ [[]])) = (l ++ '\n' :: joinNl (l2 :: rest)) ++ ['\n']
      rw [show joinNl (l :: ((l2 :: rest) ++ [[]]))
          = l ++ '\n' :: joinNl ((l2 :: rest) ++ [[]]) from rfl]
      rw [ih2, List.append_assoc]
      rfl

theorem matchQuoteStart_user (t : List Char)
    (h : t.head?.all (fun c => !isSpaceJs c) = true) :
    matchQuoteStart ("> **User**: ".data ++ t) = some (Sender.human, t) := by
  have step : matchQuoteStart ("> **User**: ".data ++ t)
      = some (Sender.human, t.dropWhile isSpaceJs) := rfl
  rw [step]
  cases t with
  | nil => rfl
  | cons c cs =>
    simp only [List.head?_cons, Option.all_some, Bool.not_eq_eq_eq_not, Bool.not_true] at h
    rw [List.dropWhile_cons_of_neg (by simp [h])]

theorem matchQuoteStart_claude (t : List Char)
    (h : t.head?.all (fun c => !isSpaceJs c) = true) :
    matchQuoteStart ("> **Claude**: ".data ++ t) = some (Sender.assistant, t) := by
  have step : matchQuoteStart ("> **Claude**: ".data ++ t)
      = some (Sender.assistant, t.dropWhile isSpaceJs) := rfl
  rw [step]
  cases t with
  | nil => rfl
  | cons c cs =>
    simp only [List.head?_cons, Option.all_some, Bool.not_eq_eq_eq_not, Bool.not_true] at h
    rw [List.dropWhile_cons_of_neg (by simp [h])]

theorem matchQuoteStart_none {l : List Char} (h : l.head? ≠ some '>') :
    matchQuoteStart l = none := by
  unfold matchQuoteStart
  split
  · rename_i rest
    exact absurd rfl h
  · rfl

theorem stripLeadingQuote_id {l : List Char} (h : l.head? ≠ some '>') :
    stripLeadingQuote l = l := by
  unfold stripLeadingQuote
  split
  · rename_i c rest
    exact absurd rfl h
  · exact absurd rfl h
  · rfl

theorem s3_fold_cont (ls : List (List Char)) :
    ∀ (content : List (List Char)) (r : Sender) (out : List ParsedMessage),
      (∀ lin ∈ ls, lin.head? ≠ some '>') →
      ls.foldl s3Step ⟨some r, content, out⟩ = ⟨some r, content ++ ls, out⟩ := by
  induction ls with
  | nil => intro content r out _; simp
  | cons lin ls' ih =>
    intro content r out h
    have h0 := h lin (List.mem_cons_self _ _)
    rw [List.foldl_cons]
    have hstep : s3Step ⟨some r, content, out⟩ lin
        = ⟨some r, content ++ [lin], out⟩ := by
      simp only [s3Step, matchQuoteStart_none h0, stripLeadingQuote_id h0]
    rw [hstep, ih (content ++ [lin]) r out fun x hx => h x (List.mem_cons_of_mem _ hx)]
    simp


/-- Conditions under which one message survives the blockquote-label round
trip: non-empty text that starts with a non-whitespace character, has no
line starting with `'>'`, and is a fixed point of the sanitizer (also with
a trailing newline appended, as happens for every non-final message). -/
def roundTrippable (m : ParsedMessage) : Prop :=
  m.text ≠ "" ∧
  m.text.data.head?.all (fun c => !isSpaceJs c) = true ∧
  (∀ lin ∈ splitNl m.text.data, lin.head? ≠ some '>') ∧
  cleanChars m.text.data = m.text.data ∧
  cleanChars (m.text.data ++ ['\n']) = m.text.data

instance (m : ParsedMessage) : Decidable (roundTrippable m) := by
  unfold roundTrippable
  infer_instance

/-- The marker-line prefix the exporter produces for each sender under the
default display names. -/
def markerPrefix : Sender → List Char
  | .human => "> **User**: ".data
  | .assistant => "> **Claude**: ".data

theorem string_eq_empty_iff (s : String) : s = "" ↔ s.data = [] := by
  constructor
  · intro h
    rw [h]
  · intro h
    rw [show s = String.mk s.data from rfl, h]

theorem quoteBlock_default (m : ParsedMessage) :
    quoteBlock "" m = markerPrefix m.sender ++ m.text.data := by
  unfold quoteBlock
  cases m.sender with
  | human =>
    show "> **".data ++ ("User".data ++ ("**: ".data ++ m.text.data))
      = "> **User**: ".data ++ m.text.data
    rw [← List.append_assoc, ← List.append_assoc]
    congr 1
  | assistant =>
    show "> **".data ++ ("Claude".data ++ ("**: ".data ++ m.text.data))
      = "> **Claude**: ".data ++ m.text.data
    rw [← List.append_assoc, ← List.append_assoc]
    congr 1

theorem block_lines (m : ParsedMessage) (hm : roundTrippable m) :
    ∃ t0 tlines, splitNl m.text.data = t0 :: tlines ∧
      splitNl (quoteBlock "" m) = (markerPrefix m.sender ++ t0) :: tlines ∧
      matchQuoteStart (markerPrefix m.sender ++ t0) = some (m.sender, t0) ∧
      t0 ≠ [] := by
  obtain ⟨hne, hhead, _, _, _⟩ := hm
  have hdne : m.text.data ≠ [] := fun hd => hne ((string_eq_empty_iff m.text).2 hd)
  obtain ⟨c, cs, hcs⟩ : ∃ c cs, m.text.data = c :: cs := by
    cases hd : m.text.data with
    | nil => exact absurd hd hdne
    | cons c cs => exact ⟨c, cs, rfl⟩
  have hcsp : isSpaceJs c = false := by
    rw [hcs] at hhead
    simpa using hhead
  have hcnl : c ≠ '\n' := fun he => by
    rw [he] at hcsp
    exact absurd hcsp (by decide)
  have hsplit : splitNl m.text.data = (splitNl cs).modifyHead (c :: ·) := by
    rw [hcs]
    simp [splitNl, hcnl]
  obtain ⟨x, xs, hxs⟩ : ∃ x xs, splitNl cs = x :: xs := by
    cases hd : splitNl cs with
    | nil => exact absurd hd (splitNl_ne_nil cs)
    | cons x xs => exact ⟨x, xs, rfl⟩
  refine ⟨c :: x, xs, ?_, ?_, ?_, by simp⟩
  · rw [hsplit, hxs]
    rfl
  · have hpre : ∀ d ∈ markerPrefix m.sender, d ≠ '\n' := by
      cases m.sender <;> exact by decide
    rw [quoteBlock_default, splitNl_prefix _ _ hpre, hsplit, hxs]
    rfl
  · have hall : (c :: x).head?.all (fun d => !isSpaceJs d) = true := by
      simp [hcsp]
    cases hs : m.sender with
    | human => exact matchQuoteStart_user (c :: x) hall
    | assistant => exact matchQuoteStart_claude (c :: x) hall

theorem s3Step_marker (st : PState) (line : List Char) (r : Sender) (t0 : List Char)
    (hmq : matchQuoteStart line = some (r, t0)) (ht0 : t0 ≠ []) :
    s3Step st line = ⟨some r, [t0], st.out ++ flushTurn st.role st.content⟩ := by
  have he : t0.isEmpty = false := by
    cases t0 with
    | nil => exact absurd rfl ht0
    | cons a b => rfl
  simp only [s3Step, hmq, he, Bool.false_eq_true, if_false]

theorem flushTurn_rt_last (m : ParsedMessage) (hm : roundTrippable m)
    (t0 : List Char) (tlines : List (List Char))
    (hsp : splitNl m.text.data = t0 :: tlines) :
    flushTurn (some m.sender) (t0 :: tlines) = [⟨m.sender, m.text, ""⟩] := by
  obtain ⟨hne, _, _, hclean, _⟩ := hm
  have hj : joinNl (t0 :: tlines) = m.text.data := by
    rw [← hsp, joinNl_splitNl]
  have hde : (cleanChars (joinNl (t0 :: tlines))).isEmpty = false := by
    rw [hj, hclean]
    cases hd : m.text.data with
    | nil => exact absurd ((string_eq_empty_iff m.text).2 hd) hne
    | cons a b => rfl
  simp only [flushTurn, List.isEmpty_cons, Bool.false_eq_true, if_false, hde]
  rw [hj, hclean]

theorem flushTurn_rt_mid (m : ParsedMessage) (hm : roundTrippable m)
    (t0 : List Char) (tlines : List (List Char))
    (hsp : splitNl m.text.data = t0 :: tlines) :
    flushTurn (some m.sender) ((t0 :: tlines) ++ [[]]) = [⟨m.sender, m.text, ""⟩] := by
  obtain ⟨hne, _, _, _, hclean1⟩ := hm
  have hj : joinNl (t0 :: (tlines ++ [[]])) = m.text.data ++ ['\n'] := by
    rw [show t0 :: (tlines ++ [[]]) = (t0 :: tlines) ++ [[]] from rfl,
      joinNl_append_empty _ (by simp), ← hsp, joinNl_splitNl]
  have hdeT : (cleanChars (joinNl (t0 :: (tlines ++ [[]])))).isEmpty = false := by
    rw [hj, hclean1]
    cases hd : m.text.data with
    | nil => exact absurd ((string_eq_empty_iff m.text).2 hd) hne
    | cons a b => rfl
  unfold flushTurn
  simp only [List.cons_append, List.isEmpty_cons, Bool.false_eq_true, if_false]
  rw [if_neg (by rw [hdeT]; simp)]
  rw [hj, hclean1]

theorem s3_run_export (msgs : List ParsedMessage) :
    (∀ m ∈ msgs, roundTrippable m) → msgs ≠ [] → ∀ st : PState,
      (((splitNl (joinBlank (msgs.map (quoteBlock "")))).foldl s3Step st).out
          ++ flushTurn ((splitNl (joinBlank (msgs.map (quoteBlock "")))).foldl s3Step st).role
              ((splitNl (joinBlank (msgs.map (quoteBlock "")))).foldl s3Step st).content)
        = st.out ++ flushTurn st.role st.content
            ++ msgs.map (fun m => ⟨m.sender, m.text, ""⟩) := by
  induction msgs with
  | nil => intro _ hne; exact absurd rfl hne
  | cons m rest ih =>
    intro hrt _ st
    have hm : roundTrippable m := hrt m (List.mem_cons_self _ _)
    obtain ⟨t0, tlines, hsp, hbl, hmq, ht0⟩ := block_lines m hm
    have htl : ∀ lin ∈ tlines, lin.head? ≠ some '>' := by
      intro lin hl
      exact hm.2.2.1 lin (hsp ▸ List.mem_cons_of_mem _ hl)
    cases rest with
    | nil =>
      rw [show joinBlank ([m].map (quoteBlock "")) = quoteBlock "" m from rfl, hbl,
        List.foldl_cons, s3Step_marker st _ _ _ hmq ht0,
        s3_fold_cont tlines [t0] m.sender _ htl]
      rw [show ([t0] ++ tlines : List (List Char)) = t0 :: tlines from rfl]
      rw [flushTurn_rt_last m hm t0 tlines hsp]
      simp
    | cons r2 rrest =>
      have hjb : joinBlank ((m :: r2 :: rrest).map (quoteBlock ""))
          = quoteBlock "" m ++ '\n' :: '\n' :: joinBlank ((r2 :: rrest).map (quoteBlock "")) := rfl
      rw [hjb, splitNl_append_newline, hbl]
      rw [show splitNl ('\n' :: joinBlank ((r2 :: rrest).map (quoteBlock "")))
          = [] :: splitNl (joinBlank ((r2 :: rrest).map (quoteBlock ""))) from rfl]
      rw [show ((markerPrefix m.sender ++ t0) :: tlines)
            ++ ([] :: splitNl (joinBlank ((r2 :: rrest).map (quoteBlock ""))))
          = (markerPrefix m.sender ++ t0)
              :: ((tlines ++ [[]]) ++ splitNl (joinBlank ((r2 :: rrest).map (quoteBlock "")))) from by
        simp]
      rw [List.foldl_cons, s3Step_marker st _ _ _ hmq ht0, List.foldl_append,
        s3_fold_cont (tlines ++ [[]]) [t0] m.sender _ (by
          intro lin hl
          rcases List.mem_append.1 hl with h1 | h2
          · exact htl lin h1
          · simp only [List.mem_singleton] at h2
            subst h2
            simp)]
      rw [ih (fun x hx => hrt x (List.mem_cons_of_mem _ hx)) (by simp) _]
      show (st.out ++ flushTurn st.role st.content)
          ++ flushTurn (some m.sender) ([t0] ++ (tlines ++ [[]]))
          ++ (r2 :: rrest).map (fun m => ⟨m.sender, m.text, ""⟩)
        = _
      rw [show ([t0] ++ (tlines ++ [[]]) : List (List Char)) = (t0 :: tlines) ++ [[]] from by simp]
      rw [flushTurn_rt_mid m hm t0 tlines hsp]
      simp


/-- C2 amended: the full markdown parser does not round-trip the canonical
export (strategy 1 captures it first — see the counterexample), but the
blockquote-label strategy alone does: re-parsing the export made with the
default display names reproduces every message's sender and text, for
messages satisfying `roundTrippable` (timestamps are not preserved). -/
theorem c2_roundtrip_amended (msgs : List ParsedMessage)
    (h : ∀ m ∈ msgs, roundTrippable m) :
    (parseStrategy3 (copyAsMarkdown "" msgs).data).map (fun m => (m.sender, m.text))
      = msgs.map (fun m => (m.sender, m.text)) := by
  cases msgs with
  | nil => rfl
  | cons m rest =>
    have hrun := s3_run_export (m :: rest) h (by simp) ⟨none, [], []⟩
    have hdata : (copyAsMarkdown "" (m :: rest)).data
        = joinBlank ((m :: rest).map (quoteBlock "")) := rfl
    simp only [parseStrategy3, hdata]
    rw [hrun]
    simp [flushTurn, List.map_map, Function.comp]

/-- C2 amended witness: a two-message conversation with multi-line
assistant text round-trips through the blockquote-label strategy. -/
theorem c2_roundtrip_amended_witness :
    (parseStrategy3 (copyAsMarkdown ""
        [⟨Sender.human, "hello", ""⟩, ⟨Sender.assistant, "hi\nthere", "t"⟩]).data).map
        (fun m => (m.sender, m.text))
      = ([⟨Sender.human, "hello", ""⟩, ⟨Sender.assistant, "hi\nthere", "t"⟩]
          : List ParsedMessage).map (fun m => (m.sender, m.text)) :=
  c2_roundtrip_amended
    [⟨Sender.human, "hello", ""⟩, ⟨Sender.assistant, "hi\nthere", "t"⟩] (by decide)


/-! ### The markdown parser factors through the raw turn segmentation -/

theorem flushTurn_eq_rawFlush (role : Option Sender) (content : List (List Char)) :
    flushTurn role content = (rawFlush role content).filterMap emitTurn := by
  cases role with
  | none => rfl
  | some r =>
    cases hc : content.isEmpty with
    | true => simp [flushTurn, rawFlush, hc]
    | false =>
      simp only [flushTurn, rawFlush, hc, Bool.false_eq_true, if_false]
      cases he : (cleanChars (joinNl content)).isEmpty with
      | true => simp [List.filterMap_cons, emitTurn, he]
      | false => simp [List.filterMap_cons, emitTurn, he]

theorem s1_sim (lines : List (List Char)) :
    ∀ (role : Option Sender) (content : List (List Char))
      (turns : List (Sender × List Char)),
      ((lines.foldl s1Step ⟨role, content, turns.filterMap emitTurn⟩).role
          = (lines.foldl r1Step ⟨role, content, turns⟩).role) ∧
      ((lines.foldl s1Step ⟨role, content, turns.filterMap emitTurn⟩).content
          = (lines.foldl r1Step ⟨role, content, turns⟩).content) ∧
      ((lines.foldl s1Step ⟨role, content, turns.filterMap emitTurn⟩).out
          = (lines.foldl r1Step ⟨role, content, turns⟩).turns.filterMap emitTurn) := by
  induction lines with
  | nil => intro role content turns; exact ⟨rfl, rfl, rfl⟩
  | cons l ls ih =>
    intro role content turns
    rw [List.foldl_cons, List.foldl_cons]
    cases hH : isHumanStart l with
    | true =>
      have hs : s1Step ⟨role, content, turns.filterMap emitTurn⟩ l
          = ⟨some .human, [l.drop 2], (turns ++ rawFlush role content).filterMap emitTurn⟩ := by
        simp [s1Step, hH, List.filterMap_append, flushTurn_eq_rawFlush]
      have hr : r1Step ⟨role, content, turns⟩ l
          = ⟨some .human, [l.drop 2], turns ++ rawFlush role content⟩ := by
        simp [r1Step, hH]
      rw [hs, hr]
      exact ih _ _ _
    | false =>
      cases hA : isAssistantStart l with
      | true =>
        have hs : s1Step ⟨role, content, turns.filterMap emitTurn⟩ l
            = ⟨some .assistant, [l.drop 2],
               (turns ++ rawFlush role content).filterMap emitTurn⟩ := by
          simp [s1Step, hH, hA, List.filterMap_append, flushTurn_eq_rawFlush]
        have hr : r1Step ⟨role, content, turns⟩ l
            = ⟨some .assistant, [l.drop 2], turns ++ rawFlush role content⟩ := by
          simp [r1Step, hH, hA]
        rw [hs, hr]
        exact ih _ _ _
      | false =>
        cases hT : isToolResultLine l with
        | true =>
          have hs : s1Step ⟨role, content, turns.filterMap emitTurn⟩ l
              = ⟨role, content, turns.filterMap emitTurn⟩ := by
            simp [s1Step, hH, hA, hT]
          have hr : r1Step ⟨role, content, turns⟩ l = ⟨role, content, turns⟩ := by
            simp [r1Step, hH, hA, hT]
          rw [hs, hr]
          exact ih _ _ _
        | false =>
          cases role with
          | none =>
            have hs : s1Step ⟨none, content, turns.filterMap emitTurn⟩ l
                = ⟨none, content, turns.filterMap emitTurn⟩ := by
              simp [s1Step, hH, hA, hT]
            have hr : r1Step ⟨none, content, turns⟩ l = ⟨none, content, turns⟩ := by
              simp [r1Step, hH, hA, hT]
            rw [hs, hr]
            exact ih _ _ _
          | some r =>
            cases hd : isDecorationLine l with
            | true =>
              have hs : s1Step ⟨some r, content, turns.filterMap emitTurn⟩ l
                  = ⟨some r, content, turns.filterMap emitTurn⟩ := by
                simp [s1Step, hH, hA, hT, hd]
              have hr : r1Step ⟨some r, content, turns⟩ l = ⟨some r, content, turns⟩ := by
                simp [r1Step, hH, hA, hT, hd]
              rw [hs, hr]
              exact ih _ _ _
            | false =>
              have hs : s1Step ⟨some r, content, turns.filterMap emitTurn⟩ l
                  = ⟨some r, content ++ [l], turns.filterMap emitTurn⟩ := by
                simp [s1Step, hH, hA, hT, hd]
              have hr : r1Step ⟨some r, content, turns⟩ l
                  = ⟨some r, content ++ [l], turns⟩ := by
                simp [r1Step, hH, hA, hT, hd]
              rw [hs, hr]
              exact ih _ _ _

theorem parseStrategy1_eq_raw (text : List Char) :
    parseStrategy1 text = (rawTurns1 text).filterMap emitTurn := by
  obtain ⟨h1, h2, h3⟩ := s1_sim (splitNl text) none [] []
  simp only [List.filterMap_nil] at h1 h2 h3
  show (List.foldl s1Step ⟨none, [], []⟩ (splitNl text)).out
      ++ flushTurn (List.foldl s1Step ⟨none, [], []⟩ (splitNl text)).role
          (List.foldl s1Step ⟨none, [], []⟩ (splitNl text)).content
    = ((List.foldl r1Step ⟨none, [], []⟩ (splitNl text)).turns
        ++ rawFlush (List.foldl r1Step ⟨none, [], []⟩ (splitNl text)).role
            (List.foldl r1Step ⟨none, [], []⟩ (splitNl text)).content).filterMap emitTurn
  rw [h3, h1, h2, List.filterMap_append, flushTurn_eq_rawFlush]

theorem s3_sim (lines : List (List Char)) :
    ∀ (role : Option Sender) (content : List (List Char))
      (turns : List (Sender × List Char)),
      ((lines.foldl s3Step ⟨role, content, turns.filterMap emitTurn⟩).role
          = (lines.foldl r3Step ⟨role, content, turns⟩).role) ∧
      ((lines.foldl s3Step ⟨role, content, turns.filterMap emitTurn⟩).content
          = (lines.foldl r3Step ⟨role, content, turns⟩).content) ∧
      ((lines.foldl s3Step ⟨role, content, turns.filterMap emitTurn⟩).out
          = (lines.foldl r3Step ⟨role, content, turns⟩).turns.filterMap emitTurn) := by
  induction lines with
  | nil => intro role content turns; exact ⟨rfl, rfl, rfl⟩
  | cons l ls ih =>
    intro role content turns
    rw [List.foldl_cons, List.foldl_cons]
    cases hmq : matchQuoteStart l with
    | some rr =>
      have hs : s3Step ⟨role, content, turns.filterMap emitTurn⟩ l
          = ⟨some rr.1, if rr.2.isEmpty then [] else [rr.2],
             (turns ++ rawFlush role content).filterMap emitTurn⟩ := by
        simp [s3Step, hmq, List.filterMap_append, flushTurn_eq_rawFlush]
      have hr : r3Step ⟨role, content, turns⟩ l
          = ⟨some rr.1, if rr.2.isEmpty then [] else [rr.2],
             turns ++ rawFlush role content⟩ := by
        simp [r3Step, hmq]
      rw [hs, hr]
      exact ih _ _ _
    | none =>
      cases role with
      | none =>
        have hs : s3Step ⟨none, content, turns.filterMap emitTurn⟩ l
            = ⟨none, content, turns.filterMap emitTurn⟩ := by
          simp [s3Step, hmq]
        have hr : r3Step ⟨none, content, turns⟩ l = ⟨none, content, turns⟩ := by
          simp [r3Step, hmq]
        rw [hs, hr]
        exact ih _ _ _
      | some r =>
        have hs : s3Step ⟨some r, content, turns.filterMap emitTurn⟩ l
            = ⟨some r, content ++ [stripLeadingQuote l], turns.filterMap emitTurn⟩ := by
          simp [s3Step, hmq]
        have hr : r3Step ⟨some r, content, turns⟩ l
            = ⟨some r, content ++ [stripLeadingQuote l], turns⟩ := by
          simp [r3Step, hmq]
        rw [hs, hr]
        exact ih _ _ _

theorem parseStrategy3_eq_raw (text : List Char) :
    parseStrategy3 text = (rawTurns3 text).filterMap emitTurn := by
  obtain ⟨h1, h2, h3⟩ := s3_sim (splitNl text) none [] []
  simp only [List.filterMap_nil] at h1 h2 h3
  show (List.foldl s3Step ⟨none, [], []⟩ (splitNl text)).out
      ++ flushTurn (List.foldl s3Step ⟨none, [], []⟩ (splitNl text)).role
          (List.foldl s3Step ⟨none, [], []⟩ (splitNl text)).content
    = ((List.foldl r3Step ⟨none, [], []⟩ (splitNl text)).turns
        ++ rawFlush (List.foldl r3Step ⟨none, [], []⟩ (splitNl text)).role
            (List.foldl r3Step ⟨none, [], []⟩ (splitNl text)).content).filterMap emitTurn
  rw [h3, h1, h2, List.filterMap_append, flushTurn_eq_rawFlush]

theorem filterMap_trim_clean (L : List (Sender × List Char)) :
    (L.filterMap fun roleSeg =>
        let content := jsTrimC roleSeg.2
        if content.isEmpty then none
        else
          let c := cleanChars content
          if c.isEmpty then none else some (⟨roleSeg.1, String.mk c, ""⟩ : ParsedMessage))
      = (L.filterMap fun roleSeg =>
          let content := jsTrimC roleSeg.2
          if content.isEmpty then none else some (roleSeg.1, content)).filterMap emitTurn := by
  induction L with
  | nil => simp only [List.filterMap_nil]
  | cons rs ls ih =>
    simp only [List.filterMap_cons]
    by_cases hE : (jsTrimC rs.2).isEmpty
    · simp only [hE, if_true, ih]
    · by_cases hC : (cleanChars (jsTrimC rs.2)).isEmpty
      · simp only [hE, hC, Bool.false_eq_true, if_false, if_true, List.filterMap_cons,
          emitTurn, ih]
      · simp only [hE, hC, Bool.false_eq_true, if_false, List.filterMap_cons,
          emitTurn, ih]

theorem splitMessages_eq_raw (pairs : List (List Char × Sender)) (trailing : List Char) :
    splitMessages pairs trailing = (rawSplitTurns pairs trailing).filterMap emitTurn :=
  filterMap_trim_clean
    ((pairs.map Prod.snd).zip ((pairs.map Prod.fst).drop 1 ++ [trailing]))

theorem parseStrategy2_eq_raw (text : List Char) :
    parseStrategy2 text = (rawTurns2 text).filterMap emitTurn := by
  unfold parseStrategy2 rawTurns2
  cases hc : (scanSplit headerMatchAt 0 true [] text).1.isEmpty with
  | true => simp [hc]
  | false => simp [hc, splitMessages_eq_raw]

theorem parseStrategy4_eq_raw (text : List Char) :
    parseStrategy4 text = (rawTurns4 text).filterMap emitTurn := by
  unfold parseStrategy4 rawTurns4
  cases hc : (scanSplit simpleMatchAt 0 true [] text).1.isEmpty with
  | true => simp [hc]
  | false => simp [hc, splitMessages_eq_raw]

theorem parseMarkdown_eq_raw (s : String) :
    parseMarkdown s = (rawTurns s.data).filterMap emitTurn := by
  simp only [parseMarkdown, rawTurns]
  by_cases hc1 : (parseStrategy1 s.data).isEmpty
  · rw [if_neg (not_not_intro hc1), if_neg (not_not_intro hc1)]
    by_cases hc2 : (parseStrategy2 s.data).isEmpty
    · rw [if_neg (not_not_intro hc2), if_neg (not_not_intro hc2)]
      by_cases hc3 : (parseStrategy3 s.data).isEmpty
      · rw [if_neg (not_not_intro hc3), if_neg (not_not_intro hc3)]
        exact parseStrategy4_eq_raw s.data
      · rw [if_pos hc3, if_pos hc3]
        exact parseStrategy3_eq_raw s.data
    · rw [if_pos hc2, if_pos hc2]
      exact parseStrategy2_eq_raw s.data
  · rw [if_pos hc1, if_pos hc1]
    exact parseStrategy1_eq_raw s.data

theorem mem_parseMarkdown_clean (s : String) (m : ParsedMessage)
    (hm : m ∈ parseMarkdown s) :
    ∃ t ∈ rawTurns s.data, m.text = String.mk (cleanChars t.2) := by
  rw [parseMarkdown_eq_raw] at hm
  rcases List.mem_filterMap.1 hm with ⟨t, ht, hemit⟩
  refine ⟨t, ht, ?_⟩
  unfold emitTurn at hemit
  by_cases hc : (cleanChars t.2).isEmpty
  · simp [hc] at hemit
  · simp [hc] at hemit
    rw [← hemit]

/-- C1 amended: the Markdown Parser factors through the sanitizer-free
turn segmentation `rawTurns` — it equals `rawTurns` followed by
`emitTurn`, so each of its Messages carries exactly the sanitizer
`cleanChars` applied to its own turn's raw concatenated text (turns whose
sanitized text is empty being dropped) — while a Message produced by the
JSON Importer carries the trimmed newline-join of its turn's parts,
without sanitization. -/
theorem c1_sanitizer_scope :
    (∀ (s : String), parseMarkdown s = (rawTurns s.data).filterMap emitTurn) ∧
    (∀ (s : String), ∀ m ∈ parseMarkdown s,
      ∃ turn ∈ rawTurns s.data, m.text = String.mk (cleanChars turn.2)) ∧
    (∀ (msgs : List ChatMessage), ∀ m ∈ parseJsonMessages msgs,
      ∃ turn ∈ msgs,
        m.text = jsTrimS (String.mk (joinNl ((jsonTurnParts turn).map String.data)))) :=
  ⟨parseMarkdown_eq_raw, mem_parseMarkdown_clean, parseJsonMessages_text_trimmed_join⟩

/-- C1 amended witness: the factorization evaluated on `"> hi"`, the
markdown half instantiated on the message it produces, and the JSON half
on a one-turn import. -/
theorem c1_sanitizer_scope_witness :
    parseMarkdown "> hi" = (rawTurns "> hi".data).filterMap emitTurn ∧
    (∃ turn ∈ rawTurns "> hi".data,
      (⟨Sender.human, "hi", ""⟩ : ParsedMessage).text = String.mk (cleanChars turn.2)) ∧
    (∃ turn ∈ [(⟨Sender.human, "t", "Bash(ls)", []⟩ : ChatMessage)],
      (⟨Sender.human, "Bash(ls)", "t"⟩ : ParsedMessage).text
        = jsTrimS (String.mk (joinNl ((jsonTurnParts turn).map String.data)))) :=
  ⟨c1_sanitizer_scope.1 "> hi",
   c1_sanitizer_scope.2.1 "> hi" ⟨Sender.human, "hi", ""⟩ (by decide),
   c1_sanitizer_scope.2.2 [⟨Sender.human, "t", "Bash(ls)", []⟩]
     ⟨Sender.human, "Bash(ls)", "t"⟩ (by decide)⟩

end ChatAnalyzer
